import Mathlib

/-!
Verification of the Spektrum TestRail reporting core
(`src/spektrum/reporting/testrail.py`) against its specification.

The Python code is shallowly embedded:
  * Python dicts become ordered association lists (`List (Nat × _)`),
    with insertion-order iteration and overwrite-on-existing-key
    assignment, mirroring CPython dict semantics.
  * Mutable record objects (the section dicts handled by `restructure`)
    live in an explicit heap keyed by the flat mapping's keys, so that
    in-place mutation and aliasing between the flat mapping and the
    returned tree are observable.
  * Fallible remote calls are driven by explicit environment values
    (response oracles); Python exceptions and `KeyError`s surface as
    `Option`/dedicated constructors.
  * Functions imported from modules outside the repository snapshot
    (`spektrum.utils`, `spektrum.reporting.data`) are abstracted as
    function parameters where their exact text does not matter.
-/

/-! ### Python dict primitives -/

/-- Lookup in an insertion-ordered association list, like `d[k]`/`d.get(k)`. -/
def dictLookup {α : Type} (l : List (Nat × α)) (k : Nat) : Option α :=
  (l.find? (fun p => p.1 == k)).map (fun p => p.2)

/-- Key-membership test, like `k in d`. -/
def dictHasKey {α : Type} (l : List (Nat × α)) (k : Nat) : Bool :=
  l.any (fun p => p.1 == k)

/-- Assignment `d[k] = v`: overwrite an existing key in place, otherwise
append at the end, like CPython dicts. -/
def dictInsert {α : Type} (l : List (Nat × α)) (k : Nat) (v : α) : List (Nat × α) :=
  if dictHasKey l k then l.map (fun p => if p.1 == k then (k, v) else p)
  else l ++ [(k, v)]

theorem dictLookup_nil {α : Type} (k : Nat) : dictLookup ([] : List (Nat × α)) k = none := rfl

theorem dictLookup_cons {α : Type} (p : Nat × α) (l : List (Nat × α)) (k : Nat) :
    dictLookup (p :: l) k = if p.1 = k then some p.2 else dictLookup l k := by
  simp only [dictLookup, List.find?]
  by_cases h : p.1 = k
  · simp [h]
  · have : (p.1 == k) = false := by simpa using h
    simp [this, h]

theorem dictHasKey_cons {α : Type} (p : Nat × α) (l : List (Nat × α)) (k : Nat) :
    dictHasKey (p :: l) k = true ↔ (p.1 = k ∨ dictHasKey l k = true) := by
  simp [dictHasKey]

theorem lookup_overwrite_self {α : Type} (l : List (Nat × α)) (k : Nat) (v : α)
    (h : dictHasKey l k = true) :
    dictLookup (l.map (fun p => if p.1 == k then (k, v) else p)) k = some v := by
  induction l with
  | nil => simp [dictHasKey] at h
  | cons p rest ih =>
    by_cases hp : p.1 = k
    · simp [dictLookup_cons, hp]
    · have hr : dictHasKey rest k = true := by
        rcases (dictHasKey_cons p rest k).mp h with h1 | h2
        · exact absurd h1 hp
        · exact h2
      have hne : (p.1 == k) = false := by simpa using hp
      simpa [dictLookup_cons, hne, hp] using ih hr

theorem lookup_overwrite_ne {α : Type} (l : List (Nat × α)) (k k' : Nat) (v : α)
    (h : k' ≠ k) :
    dictLookup (l.map (fun p => if p.1 == k then (k, v) else p)) k' = dictLookup l k' := by
  induction l with
  | nil => rfl
  | cons p rest ih =>
    have h1 : ¬ k = k' := fun hk => h hk.symm
    by_cases hp : p.1 = k
    · have h2 : ¬ p.1 = k' := by rw [hp]; exact h1
      simpa [dictLookup_cons, hp, h1, h2] using ih
    · by_cases hp' : p.1 = k'
      · simp [dictLookup_cons, hp, hp', h]
      · simpa [dictLookup_cons, hp, hp'] using ih

theorem lookup_append_of_no_key {α : Type} (l l2 : List (Nat × α)) (k : Nat)
    (h : dictHasKey l k = false) :
    dictLookup (l ++ l2) k = dictLookup l2 k := by
  induction l with
  | nil => rfl
  | cons p rest ih =>
    have hp : p.1 ≠ k := by
      intro hpk
      have : dictHasKey (p :: rest) k = true := (dictHasKey_cons p rest k).mpr (Or.inl hpk)
      rw [this] at h; exact Bool.true_eq_false.mp h
    have hr : dictHasKey rest k = false := by
      cases hrk : dictHasKey rest k
      · rfl
      · have : dictHasKey (p :: rest) k = true := (dictHasKey_cons p rest k).mpr (Or.inr hrk)
        rw [this] at h; exact absurd h (by simp)
    simpa [dictLookup_cons, hp] using ih hr

theorem dictLookup_insert_self {α : Type} (l : List (Nat × α)) (k : Nat) (v : α) :
    dictLookup (dictInsert l k v) k = some v := by
  unfold dictInsert
  cases hh : dictHasKey l k
  · simp only [Bool.false_eq_true, if_false]
    rw [lookup_append_of_no_key l [(k, v)] k hh]
    simp [dictLookup_cons]
  · simp only [if_true]
    exact lookup_overwrite_self l k v hh

theorem dictLookup_insert_ne {α : Type} (l : List (Nat × α)) (k k' : Nat) (v : α)
    (h : k' ≠ k) : dictLookup (dictInsert l k v) k' = dictLookup l k' := by
  unfold dictInsert
  cases hh : dictHasKey l k
  · simp only [Bool.false_eq_true, if_false]
    have h1 : ¬ k = k' := fun hk => h hk.symm
    induction l with
    | nil => simp [dictLookup_cons, dictLookup_nil, h1]
    | cons p rest ih =>
      have hr : dictHasKey rest k = false := by
        cases hrk : dictHasKey rest k
        · rfl
        · have : dictHasKey (p :: rest) k = true := (dictHasKey_cons p rest k).mpr (Or.inr hrk)
          rw [this] at hh; exact absurd hh (by simp)
      by_cases hp : p.1 = k'
      · simp [dictLookup_cons, hp]
      · simp [dictLookup_cons, hp, ih hr]
  · simp only [if_true]
    exact lookup_overwrite_ne l k k' v h

theorem dictHasKey_overwrite {α : Type} (l : List (Nat × α)) (k k' : Nat) (v : α) :
    dictHasKey (l.map (fun p => if p.1 == k then (k, v) else p)) k' = dictHasKey l k' := by
  induction l with
  | nil => rfl
  | cons p rest ih =>
    by_cases hp : p.1 = k
    · simp [dictHasKey, hp] at ih ⊢
      rw [ih]
    · simp [dictHasKey, hp] at ih ⊢
      rw [ih]

theorem dictHasKey_insert {α : Type} (l : List (Nat × α)) (k k' : Nat) (v : α) :
    dictHasKey (dictInsert l k v) k' = true ↔ (k = k' ∨ dictHasKey l k' = true) := by
  unfold dictInsert
  cases hh : dictHasKey l k
  · simp only [Bool.false_eq_true, if_false]
    constructor
    · intro hx
      rcases List.any_eq_true.mp hx with ⟨p, hp, hpk⟩
      rcases List.mem_append.mp hp with hmem | hmem
      · exact Or.inr (List.any_eq_true.mpr ⟨p, hmem, hpk⟩)
      · have hpkv : p = (k, v) := by simpa using hmem
        subst hpkv
        exact Or.inl (by simpa using hpk)
    · intro hx
      rcases hx with hx | hx
      · exact List.any_eq_true.mpr
          ⟨(k, v), List.mem_append.mpr (Or.inr (by simp)), by simpa using hx⟩
      · rcases List.any_eq_true.mp hx with ⟨p, hp, hpk⟩
        exact List.any_eq_true.mpr ⟨p, List.mem_append.mpr (Or.inl hp), hpk⟩
  · simp only [if_true]
    rw [dictHasKey_overwrite]
    constructor
    · exact fun hx => Or.inr hx
    · intro hx
      rcases hx with hx | hx
      · subst hx
        exact hh
      · exact hx

/-! ### The flat-to-tree restructurer (`restructure`, `flatten_testrail_dict`,
`structure_testrail_dict`)

A remote section record, as handled by `restructure`.  `children = none`
models the absence of the `'children'` key on the underlying dict;
`children = some l` models a `'children'` sub-dict whose entries reference
the records at heap addresses `l` (in the children dict, keys always
coincide with the referenced record's flat-mapping key). -/
structure PyRec where
  rid : Nat
  parent_id : Option Nat
  depth : Nat
  children : Option (List Nat)
deriving DecidableEq, Repr

/-- State threaded through `restructure`: the heap of record objects
(`heap`, which doubles as the flat input mapping `sections` since
`restructure` mutates its argument in place) and the `structured` dict of
key → heap-address entries. -/
structure RState where
  heap : List (Nat × PyRec)
  structured : List (Nat × Nat)
deriving DecidableEq, Repr

/-- Insertion into a children dict: `children[section_id] = section`. The
stored value is the reference to the record at address `k`, so only the
address is recorded; assigning an existing key is a no-op. -/
def childInsert (l : List Nat) (k : Nat) : List Nat :=
  if l.contains k then l else l ++ [k]

/-- One iteration of the `for section_id, section in at_depth.items()` loop
body of `restructure` (testrail.py lines 420-437).  `none` models a raised
`KeyError` (missing parent in the flat mapping, or a missing `'children'`
key where the code indexes it). -/
def restructStep (s : RState) (k : Nat) : Option RState :=
  match dictLookup s.heap k with
  | none => none
  | some sec =>
    match sec.parent_id with
    | some p =>
      if p == 0 then
        -- `parent_id` equal to 0 is falsy in Python: no branch applies.
        some s
      else if dictHasKey s.structured p then
        -- elif parent_id and parent_id in structured
        match dictLookup s.structured p with
        | none => none
        | some a =>
          match dictLookup s.heap a with
          | none => none
          | some prec =>
            match prec.children with
            | none => none
            | some l =>
              some ⟨dictInsert s.heap a { prec with children := some (childInsert l k) },
                    s.structured⟩
      else
        -- if parent_id and parent_id not in structured
        match dictLookup s.heap p with
        | none => none   -- KeyError: sections[parent_id]
        | some parent =>
          -- structured[parent['id']] = parent
          let structured1 := dictInsert s.structured parent.rid p
          -- if 'children' not in structured[parent['id']]: ... = {}
          let heap1 :=
            if parent.children = none then
              dictInsert s.heap p { parent with children := some [] }
            else s.heap
          -- structured[parent_id]['children'][section_id] = section
          match dictLookup structured1 p with
          | none => none   -- KeyError: parent_id not a key of structured
          | some a =>
            match dictLookup heap1 a with
            | none => none
            | some prec =>
              match prec.children with
              | none => none
              | some l =>
                some ⟨dictInsert heap1 a { prec with children := some (childInsert l k) },
                      structured1⟩
    | none =>
      -- elif parent_id is None and section_id not in structured
      if dictHasKey s.structured k then some s
      else
        some ⟨dictInsert s.heap k { sec with children := some [] },
              dictInsert s.structured k k⟩

/-- `restructure(sections, level, structured)` (testrail.py lines 415-439).
The Python function mutates `sections` in place and returns `structured`;
the embedding returns both as an `RState`.  A `none` argument for
`structured` is passed as `[]` by callers (`structured or {}`). -/
def restructure (sections : List (Nat × PyRec)) (level : Nat)
    (structured : List (Nat × Nat)) : Option RState :=
  let atDepth := ((sections.filter (fun q => q.2.depth == level)).map (fun q => q.1))
  atDepth.foldlM restructStep ⟨sections, structured⟩

/-- `flatten_testrail_dict` (testrail.py lines 442-443): key every record of
`data['sections']` by its `'id'` field. -/
def flatten_testrail_dict (secs : List PyRec) : List (Nat × PyRec) :=
  secs.foldl (fun h r => dictInsert h r.rid r) []

/-- `structure_testrail_dict` (testrail.py lines 446-458). -/
def structure_testrail_dict (secs : List PyRec) : Option RState :=
  let flattened := flatten_testrail_dict secs
  let depthList := flattened.map (fun q => q.2.depth)
  let maxDepth := if depthList.length > 0 then depthList.foldl max 0 else 1
  ((List.range (maxDepth + 1)).reverse).foldlM
    (fun st i => restructure st.heap i st.structured) ⟨flattened, []⟩

/-! ### Paginated list retrieval (`TestRailClient._get_paginated`, `get_cases`)

The remote server is abstracted as a function from the requested offset
(the `offset` entry of the request params; `none` when the params carry no
offset, as on the first `get_cases` request) to a parsed response page.
`offset`/`limit` hold the response's own values with the Python defaults
(`data.get('offset', 0)`, `data.get('limit', 150)`) already applied. -/
structure PageResp where
  offset : Nat
  limit : Nat
  items : List Nat
  hasNext : Bool
deriving DecidableEq, Repr

/-- One HTTP GET issued by `_get_paginated`: the offset and limit carried in
`params`, and the `timeout` keyword argument passed to `httpx`. -/
structure PageReq where
  reqOffset : Option Nat
  reqLimit : Option Nat
  timeout : Option Nat
deriving DecidableEq, Repr

/-- `TestRailClient._get_paginated` (testrail.py lines 306-322), with an
explicit fuel bound standing in for Python's (unbounded) recursion depth:
a `none` result means the recursion consumed the whole fuel budget without
returning, i.e. the Python function is still recursing after `fuel` page
requests.  Mirrors the source exactly: on a page with a `_links.next`
indicator, the params are updated to `offset + limit` of the *response*
and the function recurses -- crucially, the recursive call at line 319
passes `url`, `auth` and `params` but omits `timeout`, so every follow-up
request is issued with `timeout=None`. -/
def get_paginated (srv : Option Nat → PageResp) :
    Nat → Option Nat → Option Nat → Option Nat → Option (List Nat × List PageReq)
  | 0, _, _, _ => none
  | fuel + 1, reqOffset, reqLimit, timeout =>
    let resp := srv reqOffset
    if resp.hasNext then
      match get_paginated srv fuel (some (resp.offset + resp.limit)) (some resp.limit) none with
      | none => none
      | some (items, reqs) =>
        some (resp.items ++ items, ⟨reqOffset, reqLimit, timeout⟩ :: reqs)
    else
      some (resp.items, [⟨reqOffset, reqLimit, timeout⟩])

/-- `TestRailClient.get_cases` (testrail.py lines 397-412): the initial
params carry `limit = 100` and no offset, and the initial call passes
`timeout=30`. -/
def get_cases (srv : Option Nat → PageResp) (fuel : Nat) : Option (List Nat × List PageReq) :=
  get_paginated srv fuel none (some 100) (some 30)

/-- A misbehaving server: every response carries a `_links.next` indicator
and repeats the same offset. -/
def srvLoop : Option Nat → PageResp := fun _ => ⟨0, 100, [], true⟩

/-- A well-behaved two-page server: the first request (no offset in params)
gets a page with a next link; the follow-up request gets the final page. -/
def srvTwoPages : Option Nat → PageResp :=
  fun o =>
    match o with
    | none => ⟨0, 100, [1, 2], true⟩
    | some _ => ⟨100, 100, [3], false⟩

/-! ### Result reporting (`TestRailStatus`, `TestRailRenderer.report_case`) -/

/-- The `TestRailStatus` enum (testrail.py lines 18-24). -/
inductive TestRailStatus
  | PASSED
  | BLOCKED
  | UNTESTED
  | RETEST
  | FAILED
  | SKIPPED
deriving DecidableEq, Repr

/-- The `.value` of each `TestRailStatus` member. -/
def statusValue : TestRailStatus → Nat
  | .PASSED => 1
  | .BLOCKED => 2
  | .UNTESTED => 3
  | .RETEST => 4
  | .FAILED => 5
  | .SKIPPED => 7

/-- Status resolution in `report_case` (testrail.py lines 170-174):
`status = FAILED; if skipped: SKIPPED; elif successful: PASSED`. -/
def resolveStatus (skipped successful : Bool) : TestRailStatus :=
  if skipped then .SKIPPED
  else if successful then .PASSED
  else .FAILED

/-- Python `int()` applied to a rational (truncation toward zero), as in
`int(case_data.elapsed_time)`: `Int.tdiv` is division truncating toward
zero, applied to the reduced numerator and denominator. -/
def pyInt (q : ℚ) : Int :=
  q.num.tdiv q.den

/-- `timespan = int(case_data.elapsed_time) or 1` (testrail.py line 176):
Python `or` replaces a falsy (zero) left operand by the right one. -/
def timespanOf (q : ℚ) : Int :=
  if pyInt q = 0 then 1 else pyInt q

/-- One assertion record of a case outcome, with the string renderings of
its fields as interpolated by `report_case`'s f-strings (`target`,
`expected` hold `str()` of the underlying objects; the code itself
compares `str(expect.expected_name) != str(expect.expected)`). -/
structure ExpectData where
  success : Bool
  required : Bool
  evaluation : String
  target_name : String
  target : String
  expected_name : String
  expected : String
deriving DecidableEq, Repr

/-- Marker constants (testrail.py lines 10-15). -/
def UNICODE_ARROW : String := "→"

def UNICODE_ARROW_BAR : String := "↛"

def UNICODE_CHECK : String := "✓"

def UNICODE_X : String := "✗"

/-- The lines appended for one assertion by the loop of `report_case`
(testrail.py lines 180-192). -/
def expectLines (e : ExpectData) : List String :=
  let mark := if e.success then UNICODE_CHECK else UNICODE_X
  let arrow := if e.required then UNICODE_ARROW_BAR else UNICODE_ARROW
  let headLine := arrow ++ " " ++ mark ++ " " ++ e.evaluation
  if e.success then [headLine]
  else
    [headLine, "    Values:", "    -------",
     "    | " ++ e.target_name ++ ": " ++ e.target]
    ++ (if e.expected_name ≠ e.expected then
          ["    | " ++ e.expected_name ++ ": " ++ e.expected]
        else [])

/-- A completed case outcome as consumed by `report_case`.  The fields come
from `CaseFormatData` (outside the repository snapshot); `report_case`
reads exactly these. -/
structure CaseOutcome where
  raw_name : String
  skipped : Bool
  successful : Bool
  elapsed_time : ℚ
  expects : List ExpectData
  errors : List (List String)
  error_type : String
deriving DecidableEq, Repr

/-- The comment body of `report_case` (testrail.py lines 178-201);
`tbmsg` abstracts `utils.traceback_occurred_msg` (in `spektrum/utils.py`,
outside the snapshot). -/
def commentLines (tbmsg : String → String) (o : CaseOutcome) : List String :=
  let expectPart := o.expects.foldl (fun acc e => acc ++ expectLines e) []
  if o.errors ≠ [] then
    expectPart
    ++ ["", tbmsg o.error_type, "----------------------------------------"]
    ++ o.errors.foldl (fun acc err => acc ++ err) []
  else expectPart

/-- The body of the `add_result_for_case` POST issued at the end of
`report_case` (testrail.py lines 206-212 and 324-336). -/
structure ResultPayload where
  run_id : Nat
  case_id : Nat
  status_id : Nat
  elapsed : String
  comment : String
deriving DecidableEq, Repr

/-- The payload `report_case` submits for a resolved case id under a known
run id. -/
def buildPayload (tbmsg : String → String) (runId caseId : Nat) (o : CaseOutcome) :
    ResultPayload :=
  ⟨runId, caseId,
   statusValue (resolveStatus o.skipped o.successful),
   toString (timespanOf o.elapsed_time) ++ "s",
   String.intercalate "\n" (commentLines tbmsg o)⟩

/-! ### Hierarchy reconciliation (`reconcile_spec_and_section`,
`_ensure_spec_hierarchy`, `_get_all_sections`, `_find_existing_section`,
`track_top_level`) -/

/-- A remote section record as the reconciler reads it (`'id'`,
`'suite_id'`, `'name'`, `'parent_id'`). -/
structure TRSection where
  sid : Nat
  suite_id : Nat
  sname : String
  parent_id : Option Nat
deriving DecidableEq, Repr

/-- Remote-call oracle for section reconciliation: `sectionsResp` is the
outcome of `get_sections` (`some` = HTTP 200 with parsed section list,
`none` = non-200 or exception), `addSection` maps the name and parent id
of an `add_section` POST to `some (id, suite_id)` on HTTP 200 and `none`
otherwise. -/
structure SectionEnv where
  sectionsResp : Option (List TRSection)
  addSection : String → Option Nat → Option (Nat × Nat)

/-- Remote calls issued during reconciliation, for counting fetches. -/
inductive RecEvent
  | getSectionsCall
  | addSectionCall (name : String) (parent : Option Nat)
deriving DecidableEq, Repr

/-- `TestRailRenderer._get_all_sections` (testrail.py lines 103-113): one
`get_sections` call; non-200 and exceptions both collapse to `[]`. -/
def get_all_sections (env : SectionEnv) : List TRSection × List RecEvent :=
  match env.sectionsResp with
  | some l => (l, [.getSectionsCall])
  | none => ([], [.getSectionsCall])

/-- `TestRailRenderer._find_existing_section` (testrail.py lines 115-124):
first section matching on both name and parent id. -/
def find_existing_section (all_sections : List TRSection) (name : String)
    (parent_id : Option Nat) : Option TRSection :=
  all_sections.find? (fun s => s.sname == name && s.parent_id == parent_id)

/-- Outcome of the `_ensure_spec_hierarchy` loop as observable on
`spec_data`: `assigned` = the last chain segment resolved and
`section_id`/`suite_id` were set; `aborted` = a non-200 `add_section`
response hit the bare `return` at line 90, leaving both unset;
`emptyChain` = the loop body never ran (empty class hierarchy -- not
reachable from a real `__qualname__`), also leaving both unset. -/
inductive EnsureOutcome
  | assigned (section_id suite_id : Nat)
  | emptyChain
  | aborted
deriving DecidableEq, Repr

/-- The `for i, class_name in enumerate(class_hierarchy)` loop of
`_ensure_spec_hierarchy` (testrail.py lines 70-96).  `conv` abstracts
`utils.camelcase_to_spaces` (in `spektrum/utils.py`, outside the
snapshot). -/
def ensureChain (addSec : String → Option Nat → Option (Nat × Nat))
    (conv : String → String) (allSections : List TRSection) (parent : Option Nat) :
    List String → EnsureOutcome × List RecEvent
  | [] => (.emptyChain, [])
  | cname :: rest =>
    let section_name := conv cname
    match find_existing_section allSections section_name parent with
    | some s =>
      match rest with
      | [] => (.assigned s.sid s.suite_id, [])
      | _ :: _ => ensureChain addSec conv allSections (some s.sid) rest
    | none =>
      match addSec section_name parent with
      | some (sid, suiteId) =>
        match rest with
        | [] => (.assigned sid suiteId, [.addSectionCall section_name parent])
        | _ :: _ =>
          let r := ensureChain addSec conv allSections (some sid) rest
          (r.1, .addSectionCall section_name parent :: r.2)
      | none => (.aborted, [.addSectionCall section_name parent])

/-- `TestRailRenderer._ensure_spec_hierarchy` (testrail.py lines 65-96).
Note line 67: the function fetches the section list itself and ignores the
`sections` parameter entirely. -/
def ensure_spec_hierarchy (env : SectionEnv) (conv : String → String)
    (chain : List String) : EnsureOutcome × List RecEvent :=
  let r := get_all_sections env
  let r2 := ensureChain env.addSection conv r.1 none chain
  (r2.1, r.2 ++ r2.2)

/-- A local spec node: its stable local identity (`spec._id`), its
qualified class-name chain (`__qualname__.split('.')`) and its child spec
nodes.  Cases are irrelevant to section reconciliation and omitted
(`utils.filter_cases_by_data` at line 50 only prunes cases). -/
inductive LocalSpec
  | node (sid : Nat) (chain : List String) (children : List LocalSpec)

/-- Local identity of a spec node. -/
def LocalSpec.sid : LocalSpec → Nat
  | .node s _ _ => s

/-- Class-name chain of a spec node. -/
def LocalSpec.chain : LocalSpec → List String
  | .node _ c _ => c

/-- Child spec nodes. -/
def LocalSpec.children : LocalSpec → List LocalSpec
  | .node _ _ cs => cs

/-- The reconciler's cache entry for one spec node, as far as section
reconciliation is concerned (`TestRailSpecData.section_id` /
`.suite_id`). -/
structure EnsEntry where
  section_id : Option Nat
  suite_id : Option Nat
deriving DecidableEq, Repr

/-- The `section_id`/`suite_id` pair a `TestRailSpecData` carries after
`_ensure_spec_hierarchy` ran on it: both stay `None` unless the loop
assigned them at the last segment. -/
def entryOfOutcome : EnsureOutcome → EnsEntry
  | .assigned a b => ⟨some a, some b⟩
  | _ => ⟨none, none⟩

mutual

/-- `TestRailRenderer.reconcile_spec_and_section` (testrail.py lines
49-63): reconcile this node's sections, record the node in `self.specs`
unconditionally (line 54), then recurse into the children, passing the
`sections` parameter along unchanged. -/
def reconcile_spec_and_section (env : SectionEnv) (conv : String → String)
    (sectionsParam : List TRSection) (s : LocalSpec)
    (cache : List (Nat × EnsEntry)) : List (Nat × EnsEntry) × List RecEvent :=
  match s with
  | .node sid chain children =>
    let r := ensure_spec_hierarchy env conv chain
    let cache1 := dictInsert cache sid (entryOfOutcome r.1)
    let r2 := reconcileChildren env conv sectionsParam children cache1
    (r2.1, r.2 ++ r2.2)

/-- The `for child in spec_data.specs` recursion of
`reconcile_spec_and_section` (testrail.py lines 56-63). -/
def reconcileChildren (env : SectionEnv) (conv : String → String)
    (sectionsParam : List TRSection) :
    List LocalSpec → List (Nat × EnsEntry) → List (Nat × EnsEntry) × List RecEvent
  | [], cache => (cache, [])
  | s :: rest, cache =>
    let r1 := reconcile_spec_and_section env conv sectionsParam s cache
    let r2 := reconcileChildren env conv sectionsParam rest r1.1
    (r2.1, r1.2 ++ r2.2)

end

/-- `TestRailRenderer.track_top_level` (testrail.py lines 126-134): one
top-level reconciliation pass over all top-level specs, passing the
snapshot `self.sections.values()` fetched at construction time. -/
def track_top_level (env : SectionEnv) (conv : String → String)
    (snapshot : List TRSection) (specs : List LocalSpec)
    (cache : List (Nat × EnsEntry)) : List (Nat × EnsEntry) × List RecEvent :=
  reconcileChildren env conv snapshot specs cache

mutual

/-- Number of spec nodes in a tree. -/
def specCount : LocalSpec → Nat
  | .node _ _ children => 1 + specCountList children

/-- Number of spec nodes in a forest. -/
def specCountList : List LocalSpec → Nat
  | [] => 0
  | s :: rest => specCount s + specCountList rest

end

mutual

/-- All local identities in a spec tree (the node first). -/
def allSids : LocalSpec → List Nat
  | .node sid _ children => sid :: allSidsList children

/-- All local identities in a spec forest. -/
def allSidsList : List LocalSpec → List Nat
  | [] => []
  | s :: rest => allSids s ++ allSidsList rest

end

/-- Number of `get_sections` fetches in an event trace. -/
def countGetSections (evs : List RecEvent) : Nat :=
  evs.countP (fun e => match e with | .getSectionsCall => true | _ => false)

/-! ### On-demand case creation and case reporting
(`_create_case_on_demand`, `report_case`) -/

/-- Outcome of the `get_cases` listing inside `_create_case_on_demand`:
`ok` carries the listed cases as (title, id, section_id); `exn` models an
exception raised during the call (caught by the outer `try`). -/
inductive GetCasesResult
  | ok (cases : List (String × Nat × Nat))
  | exn
deriving DecidableEq, Repr

/-- Outcome of the `add_case` POST: `ok` = HTTP 200 with the created ids,
`fail` = non-200 response, `exn` = exception during the call. -/
inductive AddCaseResult
  | ok (case_id section_id : Nat)
  | fail
  | exn
deriving DecidableEq, Repr

/-- Remote-call oracle for one `report_case` invocation. -/
structure CaseEnv where
  getCases : GetCasesResult
  addCase : AddCaseResult
deriving DecidableEq, Repr

/-- A `CachedCase` entry (testrail.py lines 250-255). -/
structure CachedCase where
  case_id : Nat
  section_id : Nat
  raw_name : String
  name : String
deriving DecidableEq, Repr

/-- A `TestRailSpecData` cache entry as read by `report_case` and
`_create_case_on_demand`: remote ids plus the on-demand case list. -/
structure TRSpecEntry where
  section_id : Option Nat
  suite_id : Option Nat
  cases : List CachedCase
deriving DecidableEq, Repr

/-- Remote calls issued while reporting a case. -/
inductive CaseEvent
  | getCasesCall
  | addCaseCall (title : String)
  | addResultCall (p : ResultPayload)
deriving DecidableEq, Repr

/-- True for the calls `_create_case_on_demand` makes. -/
def isCreateEvent : CaseEvent → Bool
  | .getCasesCall => true
  | .addCaseCall _ => true
  | .addResultCall _ => false

/-- Display-name derivation in `_create_case_on_demand` (testrail.py lines
222-226).  `snake` and `camel` abstract `utils.snakecase_to_spaces` and
`utils.camelcase_to_spaces` (in `spektrum/utils.py`, outside the
snapshot). -/
def deriveCaseName (snake camel : String → String) (rawName : String) : String :=
  if rawName.contains '_' then snake rawName else camel rawName

/-- `TestRailRenderer._create_case_on_demand` (testrail.py lines 220-268).
Returns the resolved ids (`none, none` ↦ `none` on any failure), the
updated spec entry (the Python code mutates `cached_spec.cases` in place)
and the remote calls made.  The whole body sits in a `try` whose `except`
returns `None, None`, so an exception in `get_cases` or `add_case` yields
`none` with the cases list untouched -- the `cases.append` at line 263 only
runs after a successful resolution. -/
def create_case_on_demand (env : CaseEnv) (snake camel : String → String)
    (entry : TRSpecEntry) (rawName : String) :
    Option (Nat × Nat) × TRSpecEntry × List CaseEvent :=
  let case_name := deriveCaseName snake camel rawName
  match env.getCases with
  | .exn => (none, entry, [.getCasesCall])
  | .ok trCases =>
    match trCases.find? (fun c => c.1 == case_name) with
    | some c =>
      let newCase : CachedCase := ⟨c.2.1, c.2.2, rawName, case_name⟩
      (some (c.2.1, c.2.2), { entry with cases := entry.cases ++ [newCase] },
       [.getCasesCall])
    | none =>
      match env.addCase with
      | .ok cid sid =>
        let newCase : CachedCase := ⟨cid, sid, rawName, case_name⟩
        (some (cid, sid), { entry with cases := entry.cases ++ [newCase] },
         [.getCasesCall, .addCaseCall case_name])
      | .fail => (none, entry, [.getCasesCall, .addCaseCall case_name])
      | .exn => (none, entry, [.getCasesCall, .addCaseCall case_name])

/-- The renderer state read and written by `report_case`: the spec cache
`self.specs` and the run id `self.run`. -/
structure RendererState where
  specs : List (Nat × TRSpecEntry)
  run : Option Nat
deriving DecidableEq, Repr

/-- `TestRailRenderer.report_case` (testrail.py lines 150-212).  Returns
the updated state, the submitted payload (if any) and the remote calls
made.  Faithful points: the spec must already be in `self.specs` (line
152); a cached case short-circuits creation (lines 161-163, the `hasattr`
test is always true for `CachedCase` objects); after on-demand creation a
falsy (`None` or `0`) case id aborts reporting (line 167) -- but the cache
mutation done inside `_create_case_on_demand` is kept; no run id means no
submission (line 203). -/
def report_case (env : CaseEnv) (snake camel : String → String)
    (tbmsg : String → String) (st : RendererState) (specId : Nat)
    (o : CaseOutcome) : RendererState × Option ResultPayload × List CaseEvent :=
  match dictLookup st.specs specId with
  | none => (st, none, [])
  | some entry =>
    match entry.cases.find? (fun c => c.raw_name == o.raw_name) with
    | some cc =>
      match st.run with
      | none => (st, none, [])
      | some runId =>
        let payload := buildPayload tbmsg runId cc.case_id o
        (st, some payload, [.addResultCall payload])
    | none =>
      let r := create_case_on_demand env snake camel entry o.raw_name
      let st1 : RendererState := { st with specs := dictInsert st.specs specId r.2.1 }
      match r.1 with
      | none => (st1, none, r.2.2)
      | some (cid, _) =>
        if cid == 0 then (st1, none, r.2.2)
        else
          match st.run with
          | none => (st1, none, r.2.2)
          | some runId =>
            let payload := buildPayload tbmsg runId cid o
            (st1, some payload, r.2.2 ++ [.addResultCall payload])

/-- The failure condition of `_create_case_on_demand` exactly as the claim
words it: the case did not resolve (listing raised, or it was absent
remotely and the creating POST got a non-200 response or raised). -/
def creationFails (env : CaseEnv) (caseName : String) : Bool :=
  match env.getCases with
  | .exn => true
  | .ok trCases =>
    match trCases.find? (fun c => c.1 == caseName) with
    | some _ => false
    | none =>
      match env.addCase with
      | .ok _ _ => false
      | .fail => true
      | .exn => true

/-! ### Claims C3 and C9: pagination -/

/-- C3: the claim says `_get_paginated` terminates for every server
response sequence, detecting a malformed or offset-repeating `next`
indicator and stopping.  The code has no such progress check: against a
server whose every response carries a `next` link at the same offset, the
recursion never returns -- for every fuel bound, the fuel-bounded run is
still recursing (result `none`). -/
theorem C3_pagination_never_terminates_on_repeating_next :
    ∀ (fuel : Nat) (reqOffset reqLimit timeout : Option Nat),
      get_paginated srvLoop fuel reqOffset reqLimit timeout = none := by
  intro fuel
  induction fuel with
  | zero => intro _ _ _; rfl
  | succ n ih =>
    intro o l t
    simp only [get_paginated, srvLoop]
    rw [ih]
    simp

/-- C9: the claim says every follow-up page request carries the fixed
explicit timeout.  Evaluating `get_cases` against a two-page server shows
the first request is issued with `timeout=30` but the follow-up request
(line 319 omits the `timeout` argument) is issued with `timeout=None`. -/
theorem C9_followup_page_request_has_no_timeout :
    get_cases srvTwoPages 5 =
      some ([1, 2, 3],
        [⟨none, some 100, some 30⟩, ⟨some 100, some 100, none⟩]) := by
  rfl

/-! ### Claims C5, C7, C8: result submission -/

/-- C5: the remote status codes are fixed by the `TestRailStatus` enum
(passed 1, blocked 2, untested 3, retest 4, failed 5, skipped 7), and
every submitted payload carries the code of the status resolved from the
outcome's flags (skipped ↦ SKIPPED, else successful ↦ PASSED, else
FAILED), exactly as `report_case` computes it. -/
theorem C5_status_codes :
    (∀ (tbmsg : String → String) (runId caseId : Nat) (o : CaseOutcome),
        (buildPayload tbmsg runId caseId o).status_id
          = statusValue (resolveStatus o.skipped o.successful))
    ∧ statusValue .PASSED = 1 ∧ statusValue .BLOCKED = 2
    ∧ statusValue .UNTESTED = 3 ∧ statusValue .RETEST = 4
    ∧ statusValue .FAILED = 5 ∧ statusValue .SKIPPED = 7
    ∧ (∀ skipped successful : Bool,
        resolveStatus skipped successful
          = if skipped then .SKIPPED
            else if successful then .PASSED else .FAILED) :=
  ⟨fun _ _ _ _ => rfl, rfl, rfl, rfl, rfl, rfl, rfl, fun _ _ => rfl⟩

/-- C7: for a non-negative elapsed time the submitted elapsed value is the
whole-second truncation with a minimum of 1 (`int(elapsed) or 1`),
rendered with an `s` suffix. -/
theorem C7_elapsed_truncated_min_one (tbmsg : String → String)
    (runId caseId : Nat) (o : CaseOutcome) (h : 0 ≤ o.elapsed_time) :
    (buildPayload tbmsg runId caseId o).elapsed
      = toString (max 1 (Int.floor o.elapsed_time)) ++ "s" := by
  have hpy : pyInt o.elapsed_time = Int.floor o.elapsed_time := by
    unfold pyInt
    rw [Int.tdiv_eq_ediv (Rat.num_nonneg.mpr h) (Int.ofNat_nonneg _)]
    exact Rat.floor_def.symm
  have hnn : (0 : Int) ≤ Int.floor o.elapsed_time := by
    rw [Int.le_floor]
    exact_mod_cast h
  have hts : timespanOf o.elapsed_time = max 1 (Int.floor o.elapsed_time) := by
    unfold timespanOf
    rw [hpy]
    by_cases hz : Int.floor o.elapsed_time = 0
    · rw [if_pos hz, hz]
      rfl
    · rw [if_neg hz]
      omega
  show toString (timespanOf o.elapsed_time) ++ "s" = _
  rw [hts]

/-- Witness for C7 at the spec's own examples: elapsed 0.0 submits "1s",
elapsed 2.7 submits "2s". -/
theorem C7_witness :
    (buildPayload (fun s => s) 1 1 ⟨"t", false, true, 0, [], [], ""⟩).elapsed = "1s"
    ∧ (buildPayload (fun s => s) 1 1 ⟨"t", false, true, 27/10, [], [], ""⟩).elapsed = "2s" := by
  constructor
  · rw [C7_elapsed_truncated_min_one (fun s => s) 1 1 ⟨"t", false, true, 0, [], [], ""⟩
      (by norm_num)]
    have h0 : Int.floor ((0 : ℚ)) = 0 := by norm_num
    rw [show (⟨"t", false, true, 0, [], [], ""⟩ : CaseOutcome).elapsed_time = (0 : ℚ) from rfl,
      h0]
    rw [show max (1 : Int) 0 = 1 from by norm_num]
    rfl
  · rw [C7_elapsed_truncated_min_one (fun s => s) 1 1 ⟨"t", false, true, 27/10, [], [], ""⟩
      (by norm_num)]
    have h2 : Int.floor ((27 : ℚ)/10) = 2 := by norm_num [Int.floor_eq_iff]
    rw [show (⟨"t", false, true, 27/10, [], [], ""⟩ : CaseOutcome).elapsed_time
        = ((27 : ℚ)/10) from rfl, h2]
    rw [show max (1 : Int) 2 = 2 from by norm_num]
    rfl

theorem expectPart_mem (o : CaseOutcome) (e : ExpectData) (x : String)
    (he : e ∈ o.expects) (hx : x ∈ expectLines e) :
    x ∈ o.expects.foldl (fun acc e => acc ++ expectLines e) [] := by
  have key : ∀ (l : List ExpectData) (acc : List String),
      (e ∈ l → x ∈ l.foldl (fun acc e => acc ++ expectLines e) acc)
      ∧ (x ∈ acc → x ∈ l.foldl (fun acc e => acc ++ expectLines e) acc) := by
    intro l
    induction l with
    | nil =>
      intro acc
      exact ⟨fun h => absurd h (List.not_mem_nil e), fun h => h⟩
    | cons a rest ih =>
      intro acc
      constructor
      · intro hmem
        rcases List.mem_cons.mp hmem with hea | hrest
        · subst hea
          exact (ih (acc ++ expectLines e)).2 (List.mem_append.mpr (Or.inr hx))
        · exact (ih (acc ++ expectLines a)).1 hrest
      · intro hacc
        exact (ih (acc ++ expectLines a)).2 (List.mem_append.mpr (Or.inl hacc))
  exact (key o.expects []).1 he

/-- C8: for a failed assertion, the emitted Values block always contains
the actual-value line (it appears in the case comment), and the
expected-value line is emitted exactly when the expected-description text
differs from the expected value's string form. -/
theorem C8_values_block (tbmsg : String → String) (o : CaseOutcome)
    (e : ExpectData) (he : e ∈ o.expects) (h : e.success = false) :
    ("    | " ++ e.target_name ++ ": " ++ e.target) ∈ commentLines tbmsg o
    ∧ expectLines e
      = [(if e.required then UNICODE_ARROW_BAR else UNICODE_ARROW)
           ++ " " ++ UNICODE_X ++ " " ++ e.evaluation,
         "    Values:", "    -------",
         "    | " ++ e.target_name ++ ": " ++ e.target]
        ++ (if e.expected_name ≠ e.expected then
              ["    | " ++ e.expected_name ++ ": " ++ e.expected]
            else []) := by
  have hshape : expectLines e
      = [(if e.required then UNICODE_ARROW_BAR else UNICODE_ARROW)
           ++ " " ++ UNICODE_X ++ " " ++ e.evaluation,
         "    Values:", "    -------",
         "    | " ++ e.target_name ++ ": " ++ e.target]
        ++ (if e.expected_name ≠ e.expected then
              ["    | " ++ e.expected_name ++ ": " ++ e.expected]
            else []) := by
    unfold expectLines
    rw [h]
    simp
  constructor
  · have hmem : ("    | " ++ e.target_name ++ ": " ++ e.target) ∈ expectLines e := by
      rw [hshape]
      simp
    have := expectPart_mem o e _ he hmem
    unfold commentLines
    by_cases herr : o.errors ≠ []
    · rw [if_pos herr]
      exact List.mem_append.mpr (Or.inl (List.mem_append.mpr (Or.inl this)))
    · rw [if_neg herr]
      exact this
  · exact hshape

/-- Witness for C8: a failed assertion whose expected description differs
from the expected value gets both lines; one whose description equals the
value gets only the actual line. -/
theorem C8_witness :
    ("    | actual: 3" ∈ commentLines (fun s => s)
        ⟨"t", false, false, 0, [⟨false, true, "ev", "actual", "3", "desc", "4"⟩], [], ""⟩)
    ∧ expectLines ⟨false, true, "ev", "actual", "3", "desc", "4"⟩
        = ["↛ ✗ ev", "    Values:", "    -------", "    | actual: 3", "    | desc: 4"]
    ∧ expectLines ⟨false, true, "ev", "actual", "3", "4", "4"⟩
        = ["↛ ✗ ev", "    Values:", "    -------", "    | actual: 3"] := by
  have h1 := C8_values_block (fun s => s)
    ⟨"t", false, false, 0, [⟨false, true, "ev", "actual", "3", "desc", "4"⟩], [], ""⟩
    ⟨false, true, "ev", "actual", "3", "desc", "4"⟩ (by simp) rfl
  have h2 := C8_values_block (fun s => s)
    ⟨"t", false, false, 0, [⟨false, true, "ev", "actual", "3", "4", "4"⟩], [], ""⟩
    ⟨false, true, "ev", "actual", "3", "4", "4"⟩ (by simp) rfl
  refine ⟨h1.1, ?_, ?_⟩
  · rw [h1.2]
    decide
  · rw [h2.2]
    decide

/-! ### Claims C6 and C2: reconciliation lemmas -/

theorem countGetSections_ensureChain (addSec : String → Option Nat → Option (Nat × Nat))
    (conv : String → String) (all : List TRSection) :
    ∀ (chain : List String) (parent : Option Nat),
      countGetSections (ensureChain addSec conv all parent chain).2 = 0
  | [], _ => rfl
  | cname :: rest, parent => by
    simp only [ensureChain]
    cases hf : find_existing_section all (conv cname) parent with
    | some s =>
      cases rest with
      | nil => rfl
      | cons a l =>
        exact countGetSections_ensureChain addSec conv all (a :: l) (some s.sid)
    | none =>
      cases ha : addSec (conv cname) parent with
      | none => rfl
      | some pr =>
        cases rest with
        | nil => rfl
        | cons a l =>
          have ih := countGetSections_ensureChain addSec conv all (a :: l) (some pr.1)
          simpa [countGetSections, List.countP_cons] using ih

theorem countGetSections_ensure (env : SectionEnv) (conv : String → String)
    (chain : List String) :
    countGetSections (ensure_spec_hierarchy env conv chain).2 = 1 := by
  simp only [ensure_spec_hierarchy, get_all_sections]
  cases henv : env.sectionsResp with
  | some l =>
    simpa [countGetSections, List.countP_cons, List.countP_append] using
      countGetSections_ensureChain env.addSection conv l chain none
  | none =>
    simpa [countGetSections, List.countP_cons, List.countP_append] using
      countGetSections_ensureChain env.addSection conv [] chain none

mutual

theorem reconcile_fetch_count (env : SectionEnv) (conv : String → String)
    (sp : List TRSection) :
    ∀ (s : LocalSpec) (cache : List (Nat × EnsEntry)),
      countGetSections (reconcile_spec_and_section env conv sp s cache).2 = specCount s
  | .node sid chain children, cache => by
    have h1 := countGetSections_ensure env conv chain
    have h2 := reconcileChildren_fetch_count env conv sp children
      (dictInsert cache sid (entryOfOutcome (ensure_spec_hierarchy env conv chain).1))
    simp only [reconcile_spec_and_section, countGetSections, specCount,
      List.countP_append] at h1 h2 ⊢
    omega

theorem reconcileChildren_fetch_count (env : SectionEnv) (conv : String → String)
    (sp : List TRSection) :
    ∀ (l : List LocalSpec) (cache : List (Nat × EnsEntry)),
      countGetSections (reconcileChildren env conv sp l cache).2 = specCountList l
  | [], _ => rfl
  | s :: rest, cache => by
    have h1 := reconcile_fetch_count env conv sp s cache
    have h2 := reconcileChildren_fetch_count env conv sp rest
      (reconcile_spec_and_section env conv sp s cache).1
    simp only [reconcileChildren, countGetSections, specCountList,
      List.countP_append] at h1 h2 ⊢
    omega

end

mutual

theorem reconcile_ignores_snapshot (env : SectionEnv) (conv : String → String) :
    ∀ (s : LocalSpec) (sp1 sp2 : List TRSection) (cache : List (Nat × EnsEntry)),
      reconcile_spec_and_section env conv sp1 s cache
        = reconcile_spec_and_section env conv sp2 s cache
  | .node sid chain children, sp1, sp2, cache => by
    have h := reconcileChildren_ignore_snapshot env conv children sp1 sp2
      (dictInsert cache sid (entryOfOutcome (ensure_spec_hierarchy env conv chain).1))
    simp only [reconcile_spec_and_section]
    rw [h]

theorem reconcileChildren_ignore_snapshot (env : SectionEnv) (conv : String → String) :
    ∀ (l : List LocalSpec) (sp1 sp2 : List TRSection) (cache : List (Nat × EnsEntry)),
      reconcileChildren env conv sp1 l cache = reconcileChildren env conv sp2 l cache
  | [], _, _, _ => rfl
  | s :: rest, sp1, sp2, cache => by
    have h1 := reconcile_ignores_snapshot env conv s sp1 sp2 cache
    have h2 := reconcileChildren_ignore_snapshot env conv rest sp1 sp2
      (reconcile_spec_and_section env conv sp2 s cache).1
    simp only [reconcileChildren]
    rw [h1, h2]

end

/-- A remote environment where every section creation succeeds. -/
def exEnvOk : SectionEnv := ⟨some [], fun _ _ => some (1, 1)⟩

/-- A two-node local spec tree: one top-level spec with one child spec. -/
def exTwoTree : LocalSpec := .node 1 ["A"] [.node 2 ["A", "B"] []]

/-- C6 counterexample: the claim says one top-level reconciliation pass
fetches the section snapshot once and shares it with every descendant.
Reconciling a two-node tree issues two `get_sections` fetches (one per
node), because `_ensure_spec_hierarchy` line 67 refetches instead of using
the `sections` parameter. -/
theorem C6_counterexample :
    countGetSections (track_top_level exEnvOk (fun s => s) [] [exTwoTree] []).2 = 2 := by
  rfl

/-- C6 amended: the snapshot passed into a top-level reconciliation pass is
threaded through the recursion but never consulted (the result is
independent of it), and section lookup re-fetches the remote section list
once per spec node: a pass over a forest of n spec nodes issues exactly n
`get_sections` calls. -/
theorem C6_amended_snapshot_ignored_and_per_node_fetch (env : SectionEnv)
    (conv : String → String) (snapshot snapshot2 : List TRSection)
    (specs : List LocalSpec) (cache : List (Nat × EnsEntry)) :
    countGetSections (track_top_level env conv snapshot specs cache).2 = specCountList specs
    ∧ track_top_level env conv snapshot specs cache
        = track_top_level env conv snapshot2 specs cache :=
  ⟨reconcileChildren_fetch_count env conv snapshot specs cache,
   reconcileChildren_ignore_snapshot env conv specs snapshot snapshot2 cache⟩

mutual

theorem reconcile_lookup_other (env : SectionEnv) (conv : String → String)
    (sp : List TRSection) :
    ∀ (s : LocalSpec) (cache : List (Nat × EnsEntry)) (k : Nat), k ∉ allSids s →
      dictLookup (reconcile_spec_and_section env conv sp s cache).1 k = dictLookup cache k
  | .node sid chain children, cache, k, hk => by
    have hsid : k ≠ sid := by
      intro he
      exact hk (by simp [allSids, he])
    have hch : k ∉ allSidsList children := by
      intro he
      exact hk (by simp [allSids, he])
    have h1 := reconcileChildren_lookup_other env conv sp children
      (dictInsert cache sid (entryOfOutcome (ensure_spec_hierarchy env conv chain).1)) k hch
    simp only [reconcile_spec_and_section]
    rw [h1, dictLookup_insert_ne cache sid k _ hsid]

theorem reconcileChildren_lookup_other (env : SectionEnv) (conv : String → String)
    (sp : List TRSection) :
    ∀ (l : List LocalSpec) (cache : List (Nat × EnsEntry)) (k : Nat), k ∉ allSidsList l →
      dictLookup (reconcileChildren env conv sp l cache).1 k = dictLookup cache k
  | [], _, _, _ => rfl
  | s :: rest, cache, k, hk => by
    have hs : k ∉ allSids s := by
      intro he
      exact hk (by simp [allSidsList, he])
    have hr : k ∉ allSidsList rest := by
      intro he
      exact hk (by simp [allSidsList, he])
    have h1 := reconcile_lookup_other env conv sp s cache k hs
    have h2 := reconcileChildren_lookup_other env conv sp rest
      (reconcile_spec_and_section env conv sp s cache).1 k hr
    simp only [reconcileChildren]
    rw [h2, h1]

end

mutual

theorem reconcile_hasKey (env : SectionEnv) (conv : String → String)
    (sp : List TRSection) :
    ∀ (s : LocalSpec) (cache : List (Nat × EnsEntry)) (k : Nat),
      (k ∈ allSids s ∨ dictHasKey cache k = true) →
      dictHasKey (reconcile_spec_and_section env conv sp s cache).1 k = true
  | .node sid chain children, cache, k, hk => by
    simp only [reconcile_spec_and_section]
    apply reconcileChildren_hasKey env conv sp children _ k
    rcases hk with hk | hk
    · rcases List.mem_cons.mp (by simpa [allSids] using hk) with he | he
      · exact Or.inr ((dictHasKey_insert cache sid k _).mpr (Or.inl he.symm))
      · exact Or.inl he
    · exact Or.inr ((dictHasKey_insert cache sid k _).mpr (Or.inr hk))

theorem reconcileChildren_hasKey (env : SectionEnv) (conv : String → String)
    (sp : List TRSection) :
    ∀ (l : List LocalSpec) (cache : List (Nat × EnsEntry)) (k : Nat),
      (k ∈ allSidsList l ∨ dictHasKey cache k = true) →
      dictHasKey (reconcileChildren env conv sp l cache).1 k = true
  | [], cache, k, hk => by
    rcases hk with hk | hk
    · exact absurd hk (by simp [allSidsList])
    · exact hk
  | s :: rest, cache, k, hk => by
    simp only [reconcileChildren]
    apply reconcileChildren_hasKey env conv sp rest _ k
    rcases hk with hk | hk
    · rcases List.mem_append.mp (by simpa [allSidsList] using hk) with he | he
      · exact Or.inr (reconcile_hasKey env conv sp s cache k (Or.inl he))
      · exact Or.inl he
    · exact Or.inr (reconcile_hasKey env conv sp s cache k (Or.inr hk))

end

theorem reconcile_lookup_self (env : SectionEnv) (conv : String → String)
    (sp : List TRSection) (sid : Nat) (chain : List String)
    (children : List LocalSpec) (cache : List (Nat × EnsEntry))
    (hnd : sid ∉ allSidsList children) :
    dictLookup (reconcile_spec_and_section env conv sp (.node sid chain children) cache).1 sid
      = some (entryOfOutcome (ensure_spec_hierarchy env conv chain).1) := by
  simp only [reconcile_spec_and_section]
  rw [reconcileChildren_lookup_other env conv sp children _ sid hnd,
    dictLookup_insert_self]

/-- A remote environment where `get_sections` succeeds with an empty list
and every `add_section` POST gets a non-200 response. -/
def exEnvFail : SectionEnv := ⟨some [], fun _ _ => none⟩

/-- A single local spec node with a one-segment name chain. -/
def exSoloSpec : LocalSpec := .node 1 ["A"] []

/-- C2 counterexample: the claim says that when section creation fails for
a node, no entry for it is recorded in the reconciler's cache.  Against an
environment whose `add_section` always fails, `_ensure_spec_hierarchy`
aborts, yet `reconcile_spec_and_section` line 54 still records the node in
`self.specs` (with empty ids): the cache lookup is not `none`. -/
theorem C2_counterexample :
    (ensure_spec_hierarchy exEnvFail (fun s => s) ["A"]).1 = .aborted
    ∧ dictLookup (reconcile_spec_and_section exEnvFail (fun s => s) [] exSoloSpec []).1 1
        = some ⟨none, none⟩ := by
  exact ⟨rfl, rfl⟩

/-- C2 amended: when the section-creation call for some segment of a
node's name chain fails, `_ensure_spec_hierarchy` aborts without assigning
ids, but the node is still recorded in the reconciler's cache -- with an
entry carrying no section id and no suite id -- and all of its descendants
are still reconciled and recorded in the cache as well (each with its own
outcome), rather than the node and its descendants being left out of the
cache. -/
theorem C2_amended_failed_node_cached_with_empty_ids (env : SectionEnv)
    (conv : String → String) (sp : List TRSection) (s : LocalSpec)
    (cache : List (Nat × EnsEntry))
    (hab : (ensure_spec_hierarchy env conv s.chain).1 = .aborted)
    (hnd : (allSids s).Nodup) :
    dictLookup (reconcile_spec_and_section env conv sp s cache).1 s.sid
      = some ⟨none, none⟩
    ∧ ∀ k ∈ allSids s,
        dictHasKey (reconcile_spec_and_section env conv sp s cache).1 k = true := by
  match s with
  | .node sid chain children =>
    have hchain : LocalSpec.chain (.node sid chain children) = chain := rfl
    have hsid : LocalSpec.sid (.node sid chain children) = sid := rfl
    rw [hchain] at hab
    have hnotin : sid ∉ allSidsList children := by
      have := hnd
      simp only [allSids, List.nodup_cons] at this
      exact this.1
    constructor
    · rw [hsid, reconcile_lookup_self env conv sp sid chain children cache hnotin, hab]
      rfl
    · intro k hk
      exact reconcile_hasKey env conv sp (.node sid chain children) cache k (Or.inl hk)

/-- Witness for C2 (amended): concrete failing environment and single
node. -/
theorem C2_amended_witness :
    dictLookup (reconcile_spec_and_section exEnvFail (fun s => s) [] exSoloSpec []).1 1
      = some ⟨none, none⟩
    ∧ dictHasKey (reconcile_spec_and_section exEnvFail (fun s => s) [] exSoloSpec []).1 1
        = true := by
  have h := C2_amended_failed_node_cached_with_empty_ids exEnvFail (fun s => s) [] exSoloSpec
    [] (by rfl) (by decide)
  exact ⟨h.1, h.2 1 (by decide)⟩

/-! ### Claim C4: case-creation failure and cache behavior -/

theorem overwrite_map_id {α : Type} (l : List (Nat × α)) (k : Nat) (v : α)
    (h : dictHasKey l k = false) :
    l.map (fun p => if p.1 == k then (k, v) else p) = l := by
  induction l with
  | nil => rfl
  | cons p rest ih =>
    have hp : ¬ p.1 = k := by
      intro hpk
      have : dictHasKey (p :: rest) k = true := (dictHasKey_cons p rest k).mpr (Or.inl hpk)
      rw [this] at h; exact absurd h (by simp)
    have hr : dictHasKey rest k = false := by
      cases hrk : dictHasKey rest k
      · rfl
      · have : dictHasKey (p :: rest) k = true := (dictHasKey_cons p rest k).mpr (Or.inr hrk)
        rw [this] at h; exact absurd h (by simp)
    simpa [hp] using ih hr

theorem overwrite_idem {α : Type} (l : List (Nat × α)) (k : Nat) (v : α) :
    ((l.map (fun p => if p.1 == k then (k, v) else p)).map
        (fun p => if p.1 == k then (k, v) else p))
      = l.map (fun p => if p.1 == k then (k, v) else p) := by
  induction l with
  | nil => rfl
  | cons p rest ih =>
    by_cases hp : p.1 = k
    · simp only [List.map_cons]
      rw [ih]
      simp [hp]
    · simp only [List.map_cons]
      rw [ih]
      simp [hp]

theorem dictInsert_idem {α : Type} (l : List (Nat × α)) (k : Nat) (v : α) :
    dictInsert (dictInsert l k v) k v = dictInsert l k v := by
  cases hh : dictHasKey l k
  · have h1 : dictInsert l k v = l ++ [(k, v)] := by
      unfold dictInsert
      rw [hh]
      simp
    have h2 : dictHasKey (dictInsert l k v) k = true :=
      (dictHasKey_insert l k k v).mpr (Or.inl rfl)
    rw [h1] at h2
    rw [h1]
    unfold dictInsert
    rw [h2]
    simp only [if_true, List.map_append]
    rw [overwrite_map_id l k v hh]
    simp
  · have h1 : dictInsert l k v = l.map (fun p => if p.1 == k then (k, v) else p) := by
      unfold dictInsert
      rw [hh]
      simp
    have h2 : dictHasKey (dictInsert l k v) k = true :=
      (dictHasKey_insert l k k v).mpr (Or.inl rfl)
    rw [h1] at h2
    rw [h1]
    unfold dictInsert
    rw [h2]
    simp only [if_true]
    exact overwrite_idem l k v

theorem find?_append_of_none {α : Type} (p : α → Bool) (l1 l2 : List α)
    (h : l1.find? p = none) : (l1 ++ l2).find? p = l2.find? p := by
  induction l1 with
  | nil => rfl
  | cons a rest ih =>
    cases hp : p a with
    | true => simp [List.find?, hp] at h
    | false =>
      simp only [List.find?, hp] at h
      simp only [List.cons_append, List.find?, hp]
      exact ih h

theorem create_trace_has_getCases (env : CaseEnv) (snake camel : String → String)
    (entry : TRSpecEntry) (rawName : String) :
    CaseEvent.getCasesCall ∈ (create_case_on_demand env snake camel entry rawName).2.2 := by
  simp only [create_case_on_demand]
  cases hg : env.getCases with
  | exn => simp
  | ok l =>
    cases hf : l.find? (fun c => c.1 == deriveCaseName snake camel rawName) with
    | some c => simp [hf]
    | none =>
      cases ha : env.addCase <;> simp [hf, ha]

theorem create_fails_spec (env : CaseEnv) (snake camel : String → String)
    (entry : TRSpecEntry) (rawName : String)
    (h : creationFails env (deriveCaseName snake camel rawName) = true) :
    (create_case_on_demand env snake camel entry rawName).1 = none
    ∧ (create_case_on_demand env snake camel entry rawName).2.1 = entry := by
  obtain ⟨gc, ac⟩ := env
  cases gc with
  | exn => exact ⟨rfl, rfl⟩
  | ok l =>
    unfold creationFails at h
    simp only [create_case_on_demand]
    dsimp only at h ⊢
    cases hf : l.find? (fun c => c.1 == deriveCaseName snake camel rawName) with
    | some c =>
      rw [hf] at h
      dsimp only at h
      exact absurd h (by simp)
    | none =>
      rw [hf] at h
      dsimp only at h ⊢
      cases ac with
      | ok a b =>
        dsimp only at h
        exact absurd h (by simp)
      | fail => exact ⟨rfl, rfl⟩
      | exn => exact ⟨rfl, rfl⟩

theorem create_success_spec (env : CaseEnv) (snake camel : String → String)
    (entry : TRSpecEntry) (rawName : String) (cid sid : Nat)
    (h : (create_case_on_demand env snake camel entry rawName).1 = some (cid, sid)) :
    (create_case_on_demand env snake camel entry rawName).2.1
      = { entry with cases := entry.cases
            ++ [⟨cid, sid, rawName, deriveCaseName snake camel rawName⟩] } := by
  obtain ⟨gc, ac⟩ := env
  cases gc with
  | exn =>
    exact absurd h (by simp [create_case_on_demand])
  | ok l =>
    simp only [create_case_on_demand] at h ⊢
    cases hf : l.find? (fun c => c.1 == deriveCaseName snake camel rawName) with
    | some c =>
      rw [hf] at h
      dsimp only at h ⊢
      simp only [Option.some.injEq, Prod.mk.injEq] at h
      simp [h.1, h.2]
    | none =>
      rw [hf] at h
      dsimp only at h ⊢
      cases ac with
      | ok a b =>
        dsimp only at h
        simp only [Option.some.injEq, Prod.mk.injEq] at h
        simp [h.1, h.2]
      | fail =>
        dsimp only at h
        exact absurd h (by simp)
      | exn =>
        dsimp only at h
        exact absurd h (by simp)

theorem report_case_create_path (env : CaseEnv) (snake camel tbmsg : String → String)
    (st : RendererState) (specId : Nat) (o : CaseOutcome) (entry : TRSpecEntry)
    (hspec : dictLookup st.specs specId = some entry)
    (hnc : entry.cases.find? (fun c => c.raw_name == o.raw_name) = none) :
    report_case env snake camel tbmsg st specId o
      = (let cc := create_case_on_demand env snake camel entry o.raw_name
         let st1 : RendererState := { st with specs := dictInsert st.specs specId cc.2.1 }
         match cc.1 with
         | none => (st1, none, cc.2.2)
         | some (cid, _) =>
           if cid == 0 then (st1, none, cc.2.2)
           else
             match st.run with
             | none => (st1, none, cc.2.2)
             | some runId =>
               let payload := buildPayload tbmsg runId cid o
               (st1, some payload, cc.2.2 ++ [.addResultCall payload])) := by
  simp only [report_case]
  rw [hspec]
  dsimp only
  rw [hnc]

theorem report_case_cached_path (env : CaseEnv) (snake camel tbmsg : String → String)
    (st : RendererState) (specId : Nat) (o : CaseOutcome) (entry : TRSpecEntry)
    (cc : CachedCase) (hspec : dictLookup st.specs specId = some entry)
    (hc : entry.cases.find? (fun c => c.raw_name == o.raw_name) = some cc) :
    report_case env snake camel tbmsg st specId o
      = (match st.run with
         | none => (st, none, [])
         | some runId =>
           let payload := buildPayload tbmsg runId cc.case_id o
           (st, some payload, [.addResultCall payload])) := by
  simp only [report_case]
  rw [hspec]
  dsimp only
  rw [hc]

theorem report_case_state (env : CaseEnv) (snake camel tbmsg : String → String)
    (st : RendererState) (specId : Nat) (o : CaseOutcome) (entry : TRSpecEntry)
    (hspec : dictLookup st.specs specId = some entry)
    (hnc : entry.cases.find? (fun c => c.raw_name == o.raw_name) = none) :
    (report_case env snake camel tbmsg st specId o).1
      = { st with
          specs := dictInsert st.specs specId
                     (create_case_on_demand env snake camel entry o.raw_name).2.1 } := by
  rw [report_case_create_path env snake camel tbmsg st specId o entry hspec hnc]
  dsimp only
  cases hc : (create_case_on_demand env snake camel entry o.raw_name).1 with
  | none => rfl
  | some pr =>
    dsimp only
    by_cases hz : pr.1 == 0
    · simp only [hz, if_true]
    · simp only [hz, Bool.false_eq_true, if_false]
      cases st.run <;> rfl

/-- C4: for a case not yet in the spec's cache, if on-demand remote
creation fails (non-success response or exception) then reporting returns
normally with no submission, appends no entry to the spec's cached case
list, and a repeated report makes the identical remote creation attempt
again; if creation succeeds, exactly one cache entry is appended like the
code's `CachedCase`, and a subsequent report of the same case performs no
creation calls and submits against the cached case id. -/
theorem C4_failed_creation_uncached_success_cached_once (env : CaseEnv)
    (snake camel tbmsg : String → String) (st : RendererState) (specId : Nat)
    (o : CaseOutcome) (entry : TRSpecEntry)
    (hspec : dictLookup st.specs specId = some entry)
    (hnc : entry.cases.find? (fun c => c.raw_name == o.raw_name) = none) :
    (creationFails env (deriveCaseName snake camel o.raw_name) = true →
       dictLookup (report_case env snake camel tbmsg st specId o).1.specs specId
         = some entry
       ∧ (report_case env snake camel tbmsg st specId o).2.1 = none
       ∧ CaseEvent.getCasesCall ∈ (report_case env snake camel tbmsg st specId o).2.2
       ∧ report_case env snake camel tbmsg
           (report_case env snake camel tbmsg st specId o).1 specId o
         = ((report_case env snake camel tbmsg st specId o).1, none,
            (report_case env snake camel tbmsg st specId o).2.2))
    ∧ (∀ cid sid,
        (create_case_on_demand env snake camel entry o.raw_name).1 = some (cid, sid) →
        dictLookup (report_case env snake camel tbmsg st specId o).1.specs specId
          = some { entry with
                   cases := entry.cases
                     ++ [⟨cid, sid, o.raw_name, deriveCaseName snake camel o.raw_name⟩] }
        ∧ (report_case env snake camel tbmsg
             (report_case env snake camel tbmsg st specId o).1 specId o).2.2.filter
              isCreateEvent = []
        ∧ (∀ runId, st.run = some runId →
            (report_case env snake camel tbmsg
               (report_case env snake camel tbmsg st specId o).1 specId o).2.1
              = some (buildPayload tbmsg runId cid o))) := by
  constructor
  · intro hf
    obtain ⟨h1, h2⟩ := create_fails_spec env snake camel entry o.raw_name hf
    have hrep : report_case env snake camel tbmsg st specId o
        = ({ st with specs := dictInsert st.specs specId entry }, none,
           (create_case_on_demand env snake camel entry o.raw_name).2.2) := by
      rw [report_case_create_path env snake camel tbmsg st specId o entry hspec hnc]
      dsimp only
      rw [h1, h2]
    have hspec1 : dictLookup
        ({ st with specs := dictInsert st.specs specId entry } : RendererState).specs specId
        = some entry := by
      dsimp only
      exact dictLookup_insert_self st.specs specId entry
    refine ⟨?_, ?_, ?_, ?_⟩
    · rw [hrep]
      dsimp only
      exact dictLookup_insert_self st.specs specId entry
    · rw [hrep]
    · rw [hrep]
      exact create_trace_has_getCases env snake camel entry o.raw_name
    · rw [hrep]
      dsimp only
      rw [report_case_create_path env snake camel tbmsg
        { st with specs := dictInsert st.specs specId entry } specId o entry hspec1 hnc]
      dsimp only
      rw [h1, h2]
      have hid : dictInsert (dictInsert st.specs specId entry) specId entry
          = dictInsert st.specs specId entry :=
        dictInsert_idem st.specs specId entry
      rw [hid]
  · intro cid sid hs
    have h2 := create_success_spec env snake camel entry o.raw_name cid sid hs
    have hst := report_case_state env snake camel tbmsg st specId o entry hspec hnc
    have hlook : dictLookup (report_case env snake camel tbmsg st specId o).1.specs specId
        = some { entry with
                 cases := entry.cases
                   ++ [⟨cid, sid, o.raw_name, deriveCaseName snake camel o.raw_name⟩] } := by
      rw [hst]
      dsimp only
      rw [dictLookup_insert_self, h2]
    have hfind : ({ entry with
          cases := entry.cases
            ++ [⟨cid, sid, o.raw_name, deriveCaseName snake camel o.raw_name⟩] }
          : TRSpecEntry).cases.find? (fun c => c.raw_name == o.raw_name)
        = some ⟨cid, sid, o.raw_name, deriveCaseName snake camel o.raw_name⟩ := by
      dsimp only
      rw [find?_append_of_none _ _ _ hnc]
      simp [List.find?]
    have hrun : (report_case env snake camel tbmsg st specId o).1.run = st.run := by
      rw [hst]
    have hcached := report_case_cached_path env snake camel tbmsg
      (report_case env snake camel tbmsg st specId o).1 specId o
      { entry with
        cases := entry.cases
          ++ [⟨cid, sid, o.raw_name, deriveCaseName snake camel o.raw_name⟩] }
      ⟨cid, sid, o.raw_name, deriveCaseName snake camel o.raw_name⟩ hlook hfind
    refine ⟨hlook, ?_, ?_⟩
    · rw [hcached, hrun]
      cases st.run <;> rfl
    · intro runId hrunId
      rw [hcached, hrun, hrunId]

/-- A remote environment where the case listing succeeds empty and case
creation gets a non-200 response. -/
def exCaseEnvFail : CaseEnv := ⟨.ok [], .fail⟩

/-- A cached spec entry with resolved section ids and no cached cases. -/
def exEntry : TRSpecEntry := ⟨some 5, some 6, []⟩

/-- Renderer state with one cached spec and a known run id. -/
def exState : RendererState := ⟨[(7, exEntry)], some 9⟩

/-- A passing outcome for a case named "a". -/
def exOutcome : CaseOutcome := ⟨"a", false, true, 0, [], [], ""⟩

/-- Witness for C4: on a concrete failed creation, reporting returns with
no submission and the spec's cached case list is unchanged. -/
theorem C4_witness :
    dictLookup
      (report_case exCaseEnvFail (fun s => s) (fun s => s) (fun s => s)
        exState 7 exOutcome).1.specs 7 = some exEntry
    ∧ (report_case exCaseEnvFail (fun s => s) (fun s => s) (fun s => s)
        exState 7 exOutcome).2.1 = none := by
  have h := C4_failed_creation_uncached_success_cached_once exCaseEnvFail
    (fun s => s) (fun s => s) (fun s => s) exState 7 exOutcome exEntry (by rfl) (by rfl)
  have hf := h.1 (by rfl)
  exact ⟨hf.1, hf.2.1⟩

/-! ### Claims C1 and C10: characterization of the restructured state

Under the claims' well-formedness hypotheses, every heap reached during
`structure_testrail_dict` consists of the input records with only their
`children` key changed, and `structured` maps keys to themselves (each
entry references the record at the same flat-mapping key).  `mapHeap` and
`diagMap` express those two state shapes. -/

/-- The input records with children assigned pointwise by `c`. -/
def mapHeap (secs : List PyRec) (c : PyRec → Option (List Nat)) : List (Nat × PyRec) :=
  secs.map (fun r => (r.rid, { r with children := c r }))

/-- A `structured` dict whose every entry references the record stored at
its own key. -/
def diagMap (ids : List Nat) : List (Nat × Nat) :=
  ids.map (fun k => (k, k))

/-- The ids of the records of `l` whose `parent_id` is `k`, in list
order. -/
def kidsOf (l : List PyRec) (k : Nat) : List Nat :=
  (l.filter (fun c => c.parent_id == some k)).map PyRec.rid

theorem rid_inj (secs : List PyRec) (hN : (secs.map PyRec.rid).Nodup)
    (r q : PyRec) (hr : r ∈ secs) (hq : q ∈ secs) (h : r.rid = q.rid) : r = q := by
  induction secs with
  | nil => cases hr
  | cons a rest ih =>
    simp only [List.map_cons, List.nodup_cons] at hN
    rcases List.mem_cons.mp hr with h1 | h1 <;> rcases List.mem_cons.mp hq with h2 | h2
    · rw [h1, h2]
    · exfalso
      apply hN.1
      rw [← h1, h]
      exact List.mem_map.mpr ⟨q, h2, rfl⟩
    · exfalso
      apply hN.1
      rw [← h2, ← h]
      exact List.mem_map.mpr ⟨r, h1, rfl⟩
    · exact ih hN.2 h1 h2

theorem mapHeap_congr (secs : List PyRec) (c1 c2 : PyRec → Option (List Nat))
    (h : ∀ r ∈ secs, c1 r = c2 r) : mapHeap secs c1 = mapHeap secs c2 := by
  unfold mapHeap
  induction secs with
  | nil => rfl
  | cons a rest ih =>
    simp only [List.map_cons]
    rw [h a (by simp), ih (fun r hr => h r (by simp [hr]))]

theorem mapHeap_lookup (secs : List PyRec) (c : PyRec → Option (List Nat))
    (q : PyRec) (hN : (secs.map PyRec.rid).Nodup) (hq : q ∈ secs) :
    dictLookup (mapHeap secs c) q.rid = some { q with children := c q } := by
  induction secs with
  | nil => cases hq
  | cons a rest ih =>
    simp only [List.map_cons, List.nodup_cons] at hN
    rcases List.mem_cons.mp hq with h | h
    · subst h
      simp [mapHeap, dictLookup_cons]
    · have hne : a.rid ≠ q.rid := by
        intro he
        apply hN.1
        rw [he]
        exact List.mem_map.mpr ⟨q, h, rfl⟩
      simpa [mapHeap, dictLookup_cons, hne] using ih hN.2 h

theorem mapHeap_hasKey (secs : List PyRec) (c : PyRec → Option (List Nat)) (k : Nat) :
    dictHasKey (mapHeap secs c) k = true ↔ k ∈ secs.map PyRec.rid := by
  induction secs with
  | nil => simp [mapHeap, dictHasKey]
  | cons a rest ih =>
    simp only [mapHeap, List.map_cons] at ih ⊢
    rw [dictHasKey_cons]
    constructor
    · intro hx
      rcases hx with hx | hx
      · exact List.mem_cons.mpr (Or.inl hx.symm)
      · exact List.mem_cons.mpr (Or.inr (ih.mp hx))
    · intro hx
      rcases List.mem_cons.mp hx with hx | hx
      · exact Or.inl hx.symm
      · exact Or.inr (ih.mpr hx)

theorem mapHeap_overwrite (secs : List PyRec) (c : PyRec → Option (List Nat))
    (hN : (secs.map PyRec.rid).Nodup) (q : PyRec) (hq : q ∈ secs)
    (v : Option (List Nat)) :
    (mapHeap secs c).map
        (fun p => if p.1 == q.rid then (q.rid, { q with children := v }) else p)
      = mapHeap secs (fun r => if r.rid = q.rid then v else c r) := by
  induction secs with
  | nil => rfl
  | cons a rest ih =>
    have hN' : a.rid ∉ rest.map PyRec.rid ∧ (rest.map PyRec.rid).Nodup := by
      simpa using hN
    by_cases ha : a.rid = q.rid
    · have haq : a = q := rid_inj (a :: rest) hN a q (by simp) hq ha
      have hnot : q.rid ∉ rest.map PyRec.rid := by
        rw [← ha]
        exact hN'.1
      have htail : (mapHeap rest c).map
          (fun p => if p.1 == q.rid then (q.rid, { q with children := v }) else p)
          = mapHeap rest c := by
        apply overwrite_map_id
        cases hx : dictHasKey (mapHeap rest c) q.rid
        · rfl
        · exact absurd ((mapHeap_hasKey rest c q.rid).mp hx) hnot
      have hcongr : mapHeap rest (fun r => if r.rid = q.rid then v else c r)
          = mapHeap rest c := by
        apply mapHeap_congr
        intro r hr
        have hrne : r.rid ≠ q.rid := by
          intro he
          exact hnot (he ▸ List.mem_map.mpr ⟨r, hr, rfl⟩)
        simp [hrne]
      simp only [mapHeap, List.map_cons]
      simp only [mapHeap] at htail hcongr
      rw [htail, hcongr, haq]
      simp [ha, haq]
    · have hq' : q ∈ rest := by
        rcases List.mem_cons.mp hq with h | h
        · exact absurd (show a.rid = q.rid by rw [h]) ha
        · exact h
      have ihr := ih hN'.2 hq'
      simp only [mapHeap, List.map_cons]
      simp only [mapHeap] at ihr
      rw [ihr]
      simp [ha]

theorem mapHeap_insert (secs : List PyRec) (c : PyRec → Option (List Nat))
    (hN : (secs.map PyRec.rid).Nodup) (q : PyRec) (hq : q ∈ secs)
    (v : Option (List Nat)) :
    dictInsert (mapHeap secs c) q.rid { q with children := v }
      = mapHeap secs (fun r => if r.rid = q.rid then v else c r) := by
  unfold dictInsert
  have hk : dictHasKey (mapHeap secs c) q.rid = true :=
    (mapHeap_hasKey secs c q.rid).mpr (List.mem_map.mpr ⟨q, hq, rfl⟩)
  rw [hk]
  simp only [if_true]
  exact mapHeap_overwrite secs c hN q hq v

theorem diagMap_hasKey (ids : List Nat) (k : Nat) :
    dictHasKey (diagMap ids) k = true ↔ k ∈ ids := by
  simp only [diagMap, dictHasKey, List.any_eq_true]
  constructor
  · rintro ⟨p, hp, hpk⟩
    rcases List.mem_map.mp hp with ⟨x, hx, he⟩
    have : x = k := by
      rw [← he] at hpk
      simpa using hpk
    exact this ▸ hx
  · intro hk
    exact ⟨(k, k), List.mem_map.mpr ⟨k, hk, rfl⟩, by simp⟩

theorem diagMap_lookup (ids : List Nat) (k : Nat) (hk : k ∈ ids) :
    dictLookup (diagMap ids) k = some k := by
  induction ids with
  | nil => cases hk
  | cons a rest ih =>
    by_cases ha : a = k
    · subst ha
      simp [diagMap, dictLookup_cons]
    · have : k ∈ rest := by
        rcases List.mem_cons.mp hk with h | h
        · exact absurd h.symm ha
        · exact h
      simpa [diagMap, dictLookup_cons, ha] using ih this

theorem diagMap_insert (ids : List Nat) (k : Nat) (hk : k ∉ ids) :
    dictInsert (diagMap ids) k k = diagMap (ids ++ [k]) := by
  unfold dictInsert
  have hh : dictHasKey (diagMap ids) k = false := by
    cases hx : dictHasKey (diagMap ids) k
    · rfl
    · exact absurd ((diagMap_hasKey ids k).mp hx) hk
  rw [hh]
  simp [diagMap]

theorem kidsOf_append (l1 l2 : List PyRec) (k : Nat) :
    kidsOf (l1 ++ l2) k = kidsOf l1 k ++ kidsOf l2 k := by
  simp [kidsOf, List.filter_append]

theorem kidsOf_single_parent (t : PyRec) (k : Nat) (h : t.parent_id = some k) :
    kidsOf [t] k = [t.rid] := by
  simp [kidsOf, List.filter, h]

theorem kidsOf_single_other (t : PyRec) (k : Nat) (h : t.parent_id ≠ some k) :
    kidsOf [t] k = [] := by
  have hb : (t.parent_id == some k) = false := by simpa using h
  simp [kidsOf, List.filter, hb]

theorem kidsOf_mem_iff (l : List PyRec) (k x : Nat) :
    x ∈ kidsOf l k ↔ ∃ c ∈ l, c.parent_id = some k ∧ c.rid = x := by
  simp only [kidsOf, List.mem_map, List.mem_filter, beq_iff_eq]
  constructor
  · rintro ⟨c, ⟨hc, hp⟩, he⟩
    exact ⟨c, hc, hp, he⟩
  · rintro ⟨c, hc, hp, he⟩
    exact ⟨c, ⟨hc, hp⟩, he⟩

theorem kidsOf_mem (secs : List PyRec) (k : Nat) (r : PyRec) (hr : r ∈ secs)
    (hp : r.parent_id = some k) : r.rid ∈ kidsOf secs k :=
  (kidsOf_mem_iff secs k r.rid).mpr ⟨r, hr, hp, rfl⟩

theorem kidsOf_subset_rids (l : List PyRec) (k x : Nat) (hx : x ∈ kidsOf l k) :
    x ∈ l.map PyRec.rid := by
  rcases (kidsOf_mem_iff l k x).mp hx with ⟨c, hc, _, he⟩
  exact List.mem_map.mpr ⟨c, hc, he⟩

theorem kidsOf_nodup (secs : List PyRec) (hN : (secs.map PyRec.rid).Nodup) (k : Nat) :
    (kidsOf secs k).Nodup := by
  unfold kidsOf
  exact hN.sublist (List.Sublist.map PyRec.rid (List.filter_sublist secs))

theorem kids_depth (secs : List PyRec) (hN : (secs.map PyRec.rid).Nodup)
    (hPar : ∀ r ∈ secs, r.parent_id = none ∨
      ∃ q ∈ secs, r.parent_id = some q.rid ∧ r.depth = q.depth + 1)
    (r : PyRec) (hr : r ∈ secs) (c : PyRec) (hc : c ∈ secs)
    (hp : c.parent_id = some r.rid) : c.depth = r.depth + 1 := by
  rcases hPar c hc with h | ⟨q, hq, hpq, hd⟩
  · rw [h] at hp
    cases hp
  · rw [hp] at hpq
    injection hpq with he
    have hqr : q = r := rid_inj secs hN q r hq hr he.symm
    rw [hd, hqr]

theorem diagMap_hasKey_false (ids : List Nat) (k : Nat) (hk : k ∉ ids) :
    dictHasKey (diagMap ids) k = false := by
  cases hx : dictHasKey (diagMap ids) k
  · rfl
  · exact absurd ((diagMap_hasKey ids k).mp hx) hk

theorem restructStep_parent_new (secs : List PyRec) (c : PyRec → Option (List Nat))
    (ids : List Nat) (hN : (secs.map PyRec.rid).Nodup)
    (sec : PyRec) (hsec : sec ∈ secs) (q : PyRec) (hq : q ∈ secs)
    (hp : sec.parent_id = some q.rid) (hp0 : q.rid ≠ 0) (hpids : q.rid ∉ ids) :
    restructStep ⟨mapHeap secs c, diagMap ids⟩ sec.rid
      = some ⟨mapHeap secs
          (fun r => if r.rid = q.rid then
              some (childInsert ((c q).getD []) sec.rid) else c r),
          diagMap (ids ++ [q.rid])⟩ := by
  have hb0 : (q.rid == 0) = false := by simpa using hp0
  simp only [restructStep]
  rw [mapHeap_lookup secs c sec hN hsec]
  dsimp only
  rw [hp]
  dsimp only
  rw [hb0, diagMap_hasKey_false ids q.rid hpids]
  simp only [Bool.false_eq_true, if_false]
  rw [mapHeap_lookup secs c q hN hq]
  dsimp only
  rw [diagMap_insert ids q.rid hpids]
  cases hcq : c q with
  | none =>
    rw [if_pos rfl]
    rw [mapHeap_insert secs c hN q hq (some [])]
    rw [diagMap_lookup (ids ++ [q.rid]) q.rid (by simp)]
    dsimp only
    rw [mapHeap_lookup secs _ q hN hq]
    dsimp only
    rw [if_pos rfl]
    dsimp only
    rw [mapHeap_insert secs _ hN q hq (some (childInsert [] sec.rid))]
    refine congrArg (fun h => some (RState.mk h (diagMap (ids ++ [q.rid]))))
      (mapHeap_congr secs _ _ ?_)
    intro r hr
    by_cases hrq : r.rid = q.rid
    · simp [hrq, hcq]
    · simp [hrq]
  | some l =>
    rw [if_neg (by simp [hcq])]
    rw [diagMap_lookup (ids ++ [q.rid]) q.rid (by simp)]
    dsimp only
    rw [mapHeap_lookup secs c q hN hq]
    dsimp only
    rw [hcq]
    dsimp only
    rw [mapHeap_insert secs c hN q hq (some (childInsert l sec.rid))]
    refine congrArg (fun h => some (RState.mk h (diagMap (ids ++ [q.rid]))))
      (mapHeap_congr secs _ _ ?_)
    intro r hr
    by_cases hrq : r.rid = q.rid
    · simp [hrq, hcq]
    · simp [hrq]

theorem restructStep_parent_old (secs : List PyRec) (c : PyRec → Option (List Nat))
    (ids : List Nat) (hN : (secs.map PyRec.rid).Nodup)
    (sec : PyRec) (hsec : sec ∈ secs) (q : PyRec) (hq : q ∈ secs)
    (hp : sec.parent_id = some q.rid) (hp0 : q.rid ≠ 0) (hpids : q.rid ∈ ids)
    (l : List Nat) (hcq : c q = some l) :
    restructStep ⟨mapHeap secs c, diagMap ids⟩ sec.rid
      = some ⟨mapHeap secs
          (fun r => if r.rid = q.rid then some (childInsert l sec.rid) else c r),
          diagMap ids⟩ := by
  have hb0 : (q.rid == 0) = false := by simpa using hp0
  have hbk : dictHasKey (diagMap ids) q.rid = true := (diagMap_hasKey ids q.rid).mpr hpids
  simp only [restructStep]
  rw [mapHeap_lookup secs c sec hN hsec]
  dsimp only
  rw [hp]
  dsimp only
  rw [hb0, hbk]
  simp only [Bool.false_eq_true, if_false, if_true]
  rw [diagMap_lookup ids q.rid hpids]
  dsimp only
  rw [mapHeap_lookup secs c q hN hq]
  dsimp only
  rw [hcq]
  dsimp only
  rw [mapHeap_insert secs c hN q hq (some (childInsert l sec.rid))]

theorem restructStep_root_new (secs : List PyRec) (c : PyRec → Option (List Nat))
    (ids : List Nat) (hN : (secs.map PyRec.rid).Nodup)
    (sec : PyRec) (hsec : sec ∈ secs)
    (hp : sec.parent_id = none) (hk : sec.rid ∉ ids) :
    restructStep ⟨mapHeap secs c, diagMap ids⟩ sec.rid
      = some ⟨mapHeap secs (fun r => if r.rid = sec.rid then some [] else c r),
          diagMap (ids ++ [sec.rid])⟩ := by
  simp only [restructStep]
  rw [mapHeap_lookup secs c sec hN hsec]
  dsimp only
  rw [hp]
  dsimp only
  rw [diagMap_hasKey_false ids sec.rid hk]
  simp only [Bool.false_eq_true, if_false]
  rw [diagMap_insert ids sec.rid hk]
  have hval : ({ sec with children := some [] } : PyRec)
      = { rid := sec.rid, parent_id := none, depth := sec.depth, children := some [] } := by
    rw [← hp]
  rw [← hval]
  rw [mapHeap_insert secs c hN sec hsec (some [])]

theorem restructStep_root_old (secs : List PyRec) (c : PyRec → Option (List Nat))
    (ids : List Nat) (hN : (secs.map PyRec.rid).Nodup)
    (sec : PyRec) (hsec : sec ∈ secs)
    (hp : sec.parent_id = none) (hk : sec.rid ∈ ids) :
    restructStep ⟨mapHeap secs c, diagMap ids⟩ sec.rid
      = some ⟨mapHeap secs c, diagMap ids⟩ := by
  have hbk : dictHasKey (diagMap ids) sec.rid = true := (diagMap_hasKey ids sec.rid).mpr hk
  simp only [restructStep]
  rw [mapHeap_lookup secs c sec hN hsec]
  dsimp only
  rw [hp]
  dsimp only
  rw [hbk]
  simp only [if_true]

theorem restructStep_zero (secs : List PyRec) (c : PyRec → Option (List Nat))
    (ids : List Nat) (hN : (secs.map PyRec.rid).Nodup)
    (sec : PyRec) (hsec : sec ∈ secs) (hp : sec.parent_id = some 0) :
    restructStep ⟨mapHeap secs c, diagMap ids⟩ sec.rid
      = some ⟨mapHeap secs c, diagMap ids⟩ := by
  simp only [restructStep]
  rw [mapHeap_lookup secs c sec hN hsec]
  dsimp only
  rw [hp]
  dsimp only
  rfl

/-- The children function of the heap after the passes at depths
`maxDepth, ..., e` have run: a record with kids carries them all once its
kids' pass (depth + 1) has run; a root gains an empty children container
at its own pass unless it already had one; everything else still has no
`children` key. -/
def cAfter (secs : List PyRec) (e : Nat) (r : PyRec) : Option (List Nat) :=
  if kidsOf secs r.rid ≠ [] ∧ e ≤ r.depth + 1 then some (kidsOf secs r.rid)
  else if r.parent_id = none ∧ e ≤ r.depth then some []
  else none

/-- The children function midway through the pass at depth `e`, after the
records in `done` have been processed: parents of processed records carry
exactly their processed kids; processed childless roots carry an empty
container; everything else is as before the pass (`cPrev`). -/
def cMid (secs : List PyRec) (cPrev : PyRec → Option (List Nat))
    (done : List PyRec) (r : PyRec) : Option (List Nat) :=
  if kidsOf done r.rid ≠ [] then some (kidsOf done r.rid)
  else if r ∈ done ∧ r.parent_id = none ∧ kidsOf secs r.rid = [] then some []
  else cPrev r

/-- Which keys the `structured` dict holds after the passes at depths
`maxDepth, ..., e`: roots whose own pass has run, and records with kids
whose kids' pass has run. -/
def idsAfterChar (secs : List PyRec) (e : Nat) (k : Nat) : Prop :=
  ∃ r ∈ secs, r.rid = k ∧
    ((r.parent_id = none ∧ e ≤ r.depth) ∨ (kidsOf secs k ≠ [] ∧ e ≤ r.depth + 1))

/-- Which keys `structured` holds midway through the pass at depth `e`:
the keys from before the pass, parents of processed records, and processed
roots. -/
def idsMidChar (secs : List PyRec) (e : Nat) (done : List PyRec) (k : Nat) : Prop :=
  idsAfterChar secs (e + 1) k ∨ kidsOf done k ≠ []
  ∨ ∃ d ∈ done, d.rid = k ∧ d.parent_id = none

theorem cMid_snoc_untouched (secs : List PyRec) (cPrev : PyRec → Option (List Nat))
    (done : List PyRec) (t r : PyRec)
    (h1 : t.parent_id ≠ some r.rid) (h2 : r ≠ t) :
    cMid secs cPrev (done ++ [t]) r = cMid secs cPrev done r := by
  unfold cMid
  rw [kidsOf_append, kidsOf_single_other t r.rid h1, List.append_nil]
  have hmem : (r ∈ done ++ [t]) ↔ r ∈ done := by
    simp [List.mem_append, h2]
  simp only [hmem]

theorem cMid_snoc_parent_eq (secs : List PyRec) (cPrev : PyRec → Option (List Nat))
    (done : List PyRec) (t q : PyRec) (hp : t.parent_id = some q.rid) :
    cMid secs cPrev (done ++ [t]) q = some (kidsOf done q.rid ++ [t.rid]) := by
  unfold cMid
  rw [kidsOf_append, kidsOf_single_parent t q.rid hp]
  rw [if_pos (by simp)]

theorem cMid_snoc_self_nonroot (secs : List PyRec) (cPrev : PyRec → Option (List Nat))
    (done : List PyRec) (t : PyRec) (k0 : Nat) (hp : t.parent_id = some k0)
    (hk0 : k0 ≠ t.rid) (htd : t ∉ done) (hkd : kidsOf done t.rid = []) :
    cMid secs cPrev (done ++ [t]) t = cPrev t ∧ cMid secs cPrev done t = cPrev t := by
  have hne : t.parent_id ≠ some t.rid := by
    rw [hp]
    intro he
    injection he with he2
    exact hk0 he2
  constructor
  · unfold cMid
    rw [kidsOf_append, hkd, kidsOf_single_other t t.rid hne, List.append_nil]
    rw [if_neg (by simp), if_neg (by simp [hp])]
  · unfold cMid
    rw [hkd]
    rw [if_neg (by simp), if_neg (by simp [hp])]

theorem cMid_snoc_self_root_new (secs : List PyRec) (cPrev : PyRec → Option (List Nat))
    (done : List PyRec) (t : PyRec) (hp : t.parent_id = none)
    (hkd : kidsOf done t.rid = []) (hks : kidsOf secs t.rid = []) :
    cMid secs cPrev (done ++ [t]) t = some [] := by
  have hne : t.parent_id ≠ some t.rid := by rw [hp]; intro he; cases he
  unfold cMid
  rw [kidsOf_append, hkd, kidsOf_single_other t t.rid hne, List.append_nil]
  rw [if_neg (by simp), if_pos ⟨by simp, hp, hks⟩]

theorem cMid_snoc_self_root_old (secs : List PyRec) (cPrev : PyRec → Option (List Nat))
    (done : List PyRec) (t : PyRec) (hp : t.parent_id = none)
    (hkd : kidsOf done t.rid = []) (hks : kidsOf secs t.rid ≠ []) (htd : t ∉ done) :
    cMid secs cPrev (done ++ [t]) t = cPrev t ∧ cMid secs cPrev done t = cPrev t := by
  have hne : t.parent_id ≠ some t.rid := by rw [hp]; intro he; cases he
  constructor
  · unfold cMid
    rw [kidsOf_append, hkd, kidsOf_single_other t t.rid hne, List.append_nil]
    rw [if_neg (by simp), if_neg (by simp [hks])]
  · unfold cMid
    rw [hkd]
    rw [if_neg (by simp), if_neg (by simp [hks])]

theorem kidsOf_done_nil (secs : List PyRec) (hN : (secs.map PyRec.rid).Nodup)
    (hPar : ∀ r ∈ secs, r.parent_id = none ∨
      ∃ q ∈ secs, r.parent_id = some q.rid ∧ r.depth = q.depth + 1)
    (e : Nat) (x : PyRec) (hx : x ∈ secs) (hxd : x.depth = e)
    (dl : List PyRec) (hdl : ∀ d ∈ dl, d ∈ secs ∧ d.depth = e) :
    kidsOf dl x.rid = [] := by
  by_contra hne
  obtain ⟨y, hy⟩ := List.exists_mem_of_ne_nil _ hne
  rcases (kidsOf_mem_iff dl x.rid y).mp hy with ⟨cc, hcc, hpp, _⟩
  have h1 := hdl cc hcc
  have h2 := kids_depth secs hN hPar x hx cc h1.1 hpp
  omega

theorem childInsert_not_mem (l : List Nat) (k : Nat) (h : k ∉ l) :
    childInsert l k = l ++ [k] := by
  unfold childInsert
  rw [if_neg]
  simpa using h

theorem nodup_snoc (ids : List Nat) (x : Nat) (hnd : ids.Nodup) (hx : x ∉ ids) :
    (ids ++ [x]).Nodup := by
  rw [List.nodup_append]
  refine ⟨hnd, List.nodup_singleton x, fun a ha hax => hx ?_⟩
  have : a = x := by simpa using hax
  exact this ▸ ha


theorem restructure_pass (secs : List PyRec) (e : Nat)
    (hN : (secs.map PyRec.rid).Nodup)
    (h0 : ∀ r ∈ secs, r.rid ≠ 0)
    (hPar : ∀ r ∈ secs, r.parent_id = none ∨
      ∃ q ∈ secs, r.parent_id = some q.rid ∧ r.depth = q.depth + 1) :
    ∀ (todo done : List PyRec) (ids : List Nat),
      secs.filter (fun r => r.depth == e) = done ++ todo →
      ids.Nodup →
      (∀ k, k ∈ ids ↔ idsMidChar secs e done k) →
      ∃ ids',
        (todo.map PyRec.rid).foldlM restructStep
            ⟨mapHeap secs (cMid secs (cAfter secs (e + 1)) done), diagMap ids⟩
          = some ⟨mapHeap secs (cMid secs (cAfter secs (e + 1)) (done ++ todo)),
                  diagMap ids'⟩
        ∧ ids'.Nodup ∧ (∀ k, k ∈ ids' ↔ idsMidChar secs e (done ++ todo) k)
  | [], done, ids, hsplit, hnd, hchar => by
    refine ⟨ids, ?_, hnd, by simpa using hchar⟩
    simp [List.foldlM]
  | t :: rest, done, ids, hsplit, hnd, hchar => by
    have hmemsplit : ∀ x ∈ done ++ t :: rest, x ∈ secs ∧ x.depth = e := by
      intro x hx
      rw [← hsplit] at hx
      have h := List.mem_filter.mp hx
      exact ⟨h.1, by simpa using h.2⟩
    have ht : t ∈ secs := (hmemsplit t (by simp)).1
    have htd : t.depth = e := (hmemsplit t (by simp)).2
    have hfN2 : (done.map PyRec.rid ++ t.rid :: rest.map PyRec.rid).Nodup := by
      have hfN : ((done ++ t :: rest).map PyRec.rid).Nodup := by
        rw [← hsplit]
        exact hN.sublist (List.Sublist.map PyRec.rid (List.filter_sublist secs))
      simpa [List.map_append] using hfN
    have htdone_rid : t.rid ∉ done.map PyRec.rid := by
      intro hmem
      have hdisj := (List.nodup_append.mp hfN2).2.2
      exact hdisj hmem (by simp)
    have htdone : t ∉ done := fun h => htdone_rid (List.mem_map.mpr ⟨t, h, rfl⟩)
    have hdone_sub : ∀ d ∈ done, d ∈ secs ∧ d.depth = e := fun d hd =>
      hmemsplit d (by simp [hd])
    have hkdt : kidsOf done t.rid = [] :=
      kidsOf_done_nil secs hN hPar e t ht htd done hdone_sub
    have hsplit' : secs.filter (fun r => r.depth == e) = (done ++ [t]) ++ rest := by
      rw [hsplit]
      simp
    have hassoc : (done ++ [t]) ++ rest = done ++ t :: rest := by simp
    rcases hPar t ht with hroot | ⟨q, hq, hpq, hdq⟩
    · -- t is a root record
      by_cases hin : t.rid ∈ ids
      · -- root already in structured: step leaves the state unchanged
        have hks : kidsOf secs t.rid ≠ [] := by
          rcases (hchar t.rid).mp hin with hA | hK | hR
          · rcases hA with ⟨r', hr', hrid, hcases⟩
            have hrt : r' = t := rid_inj secs hN r' t hr' ht hrid
            subst hrt
            rcases hcases with ⟨_, hle⟩ | ⟨hk, _⟩
            · omega
            · exact hk
          · rw [hkdt] at hK
            exact absurd rfl hK
          · rcases hR with ⟨d, hd, hdr, _⟩
            have hdt : d = t := rid_inj secs hN d t (hdone_sub d hd).1 ht hdr
            exact absurd (hdt ▸ hd) htdone
        obtain ⟨hc1, hc2⟩ := cMid_snoc_self_root_old secs (cAfter secs (e + 1)) done t
          hroot hkdt hks htdone
        have hstep2 : restructStep
            ⟨mapHeap secs (cMid secs (cAfter secs (e + 1)) done), diagMap ids⟩ t.rid
            = some ⟨mapHeap secs (cMid secs (cAfter secs (e + 1)) (done ++ [t])),
                diagMap ids⟩ := by
          rw [restructStep_root_old secs (cMid secs (cAfter secs (e + 1)) done) ids hN
            t ht hroot hin]
          refine congrArg (fun h => some (RState.mk h (diagMap ids)))
            (mapHeap_congr secs _ _ ?_)
          intro r hr
          by_cases hrt : r = t
          · subst hrt
            rw [hc2, hc1]
          · rw [cMid_snoc_untouched secs _ done t r
              (by rw [hroot]; intro hcon; cases hcon) hrt]
        have hchar' : ∀ k, k ∈ ids ↔ idsMidChar secs e (done ++ [t]) k := by
          intro k
          rw [hchar k]
          unfold idsMidChar
          constructor
          · rintro (h | h | h)
            · exact Or.inl h
            · refine Or.inr (Or.inl ?_)
              rw [kidsOf_append]
              intro hc
              exact h (List.append_eq_nil.mp hc).1
            · rcases h with ⟨d, hd, hrest⟩
              exact Or.inr (Or.inr ⟨d, by simp [hd], hrest⟩)
          · rintro (h | h | h)
            · exact Or.inl h
            · rw [kidsOf_append,
                kidsOf_single_other t k (by rw [hroot]; intro hcon; cases hcon),
                List.append_nil] at h
              exact Or.inr (Or.inl h)
            · rcases h with ⟨d, hd, hdr, hdp⟩
              rcases List.mem_append.mp hd with hd2 | hd2
              · exact Or.inr (Or.inr ⟨d, hd2, hdr, hdp⟩)
              · have hdt : d = t := by simpa using hd2
                subst hdt
                rw [← hdr]
                exact (hchar d.rid).mp hin
        obtain ⟨ids', hfold, hnd', hchar''⟩ := restructure_pass secs e hN h0 hPar
          rest (done ++ [t]) ids hsplit' hnd hchar'
        rw [hassoc] at hfold hchar''
        refine ⟨ids', ?_, hnd', hchar''⟩
        simp only [List.map_cons, List.foldlM_cons]
        rw [hstep2]
        simpa using hfold
      · -- new root: inserted with an empty children dict
        have hks : kidsOf secs t.rid = [] := by
          by_contra hne
          exact hin ((hchar t.rid).mpr
            (Or.inl ⟨t, ht, rfl, Or.inr ⟨hne, by omega⟩⟩))
        have hstep2 : restructStep
            ⟨mapHeap secs (cMid secs (cAfter secs (e + 1)) done), diagMap ids⟩ t.rid
            = some ⟨mapHeap secs (cMid secs (cAfter secs (e + 1)) (done ++ [t])),
                diagMap (ids ++ [t.rid])⟩ := by
          rw [restructStep_root_new secs (cMid secs (cAfter secs (e + 1)) done) ids hN
            t ht hroot hin]
          refine congrArg (fun h => some (RState.mk h (diagMap (ids ++ [t.rid]))))
            (mapHeap_congr secs _ _ ?_)
          intro r hr
          by_cases hrt : r.rid = t.rid
          · have heq : r = t := rid_inj secs hN r t hr ht hrt
            subst heq
            rw [if_pos rfl, cMid_snoc_self_root_new secs _ done r hroot hkdt hks]
          · have hrnet : r ≠ t := fun he => hrt (by rw [he])
            rw [if_neg hrt, cMid_snoc_untouched secs _ done t r
              (by rw [hroot]; intro hcon; cases hcon) hrnet]
        have hnd1 : (ids ++ [t.rid]).Nodup := nodup_snoc ids t.rid hnd hin
        have hchar' : ∀ k, k ∈ ids ++ [t.rid] ↔ idsMidChar secs e (done ++ [t]) k := by
          intro k
          rw [List.mem_append]
          unfold idsMidChar
          constructor
          · rintro (h | h)
            · rcases (hchar k).mp h with hA | hK | hR
              · exact Or.inl hA
              · refine Or.inr (Or.inl ?_)
                rw [kidsOf_append]
                intro hc
                exact hK (List.append_eq_nil.mp hc).1
              · rcases hR with ⟨d, hd, hrest⟩
                exact Or.inr (Or.inr ⟨d, by simp [hd], hrest⟩)
            · have hk : k = t.rid := by simpa using h
              subst hk
              exact Or.inr (Or.inr ⟨t, by simp, rfl, hroot⟩)
          · rintro (h | h | h)
            · exact Or.inl ((hchar k).mpr (Or.inl h))
            · rw [kidsOf_append,
                kidsOf_single_other t k (by rw [hroot]; intro hcon; cases hcon),
                List.append_nil] at h
              exact Or.inl ((hchar k).mpr (Or.inr (Or.inl h)))
            · rcases h with ⟨d, hd, hdr, hdp⟩
              rcases List.mem_append.mp hd with hd2 | hd2
              · exact Or.inl ((hchar k).mpr (Or.inr (Or.inr ⟨d, hd2, hdr, hdp⟩)))
              · have hdt : d = t := by simpa using hd2
                subst hdt
                refine Or.inr ?_
                rw [← hdr]
                simp
        obtain ⟨ids', hfold, hnd', hchar''⟩ := restructure_pass secs e hN h0 hPar
          rest (done ++ [t]) (ids ++ [t.rid]) hsplit' hnd1 hchar'
        rw [hassoc] at hfold hchar''
        refine ⟨ids', ?_, hnd', hchar''⟩
        simp only [List.map_cons, List.foldlM_cons]
        rw [hstep2]
        simpa using hfold
    · -- t has a parent record q
      have hq0 : q.rid ≠ 0 := h0 q hq
      have hqd : q.depth + 1 = e := by omega
      have hqdone : q ∉ done := by
        intro h
        have := (hdone_sub q h).2
        omega
      have hqt : q.rid ≠ t.rid := by
        intro he
        have heq : q = t := rid_inj secs hN q t hq ht he
        rw [heq] at hdq
        omega
      have hcprev_q : cAfter secs (e + 1) q = none := by
        unfold cAfter
        have hna : ¬(kidsOf secs q.rid ≠ [] ∧ e + 1 ≤ q.depth + 1) := by
          rintro ⟨_, hle⟩
          omega
        have hnb : ¬(q.parent_id = none ∧ e + 1 ≤ q.depth) := by
          rintro ⟨_, hle⟩
          omega
        rw [if_neg hna, if_neg hnb]
      by_cases hpin : q.rid ∈ ids
      · -- parent already in structured
        have hkdq : kidsOf done q.rid ≠ [] := by
          rcases (hchar q.rid).mp hpin with hA | hK | hR
          · rcases hA with ⟨r', hr', hrid, hcases⟩
            have heq : r' = q := rid_inj secs hN r' q hr' hq hrid
            subst heq
            rcases hcases with ⟨_, hle⟩ | ⟨_, hle⟩ <;> omega
          · exact hK
          · rcases hR with ⟨d, hd, hdr, _⟩
            have heq : d = q := rid_inj secs hN d q (hdone_sub d hd).1 hq hdr
            exact absurd (heq ▸ hd) hqdone
        have hcmid_q : cMid secs (cAfter secs (e + 1)) done q
            = some (kidsOf done q.rid) := by
          unfold cMid
          rw [if_pos hkdq]
        have htl : t.rid ∉ kidsOf done q.rid := by
          intro hmem
          exact htdone_rid (kidsOf_subset_rids done q.rid t.rid hmem)
        have hstep2 : restructStep
            ⟨mapHeap secs (cMid secs (cAfter secs (e + 1)) done), diagMap ids⟩ t.rid
            = some ⟨mapHeap secs (cMid secs (cAfter secs (e + 1)) (done ++ [t])),
                diagMap ids⟩ := by
          rw [restructStep_parent_old secs (cMid secs (cAfter secs (e + 1)) done) ids hN
            t ht q hq hpq hq0 hpin (kidsOf done q.rid) hcmid_q]
          refine congrArg (fun h => some (RState.mk h (diagMap ids)))
            (mapHeap_congr secs _ _ ?_)
          intro r hr
          by_cases hrq : r.rid = q.rid
          · have heq : r = q := rid_inj secs hN r q hr hq hrq
            subst heq
            rw [if_pos rfl, childInsert_not_mem _ _ htl,
              cMid_snoc_parent_eq secs _ done t r hpq]
          · rw [if_neg hrq]
            by_cases hrt : r.rid = t.rid
            · have heq : r = t := rid_inj secs hN r t hr ht hrt
              subst heq
              obtain ⟨hc1, hc2⟩ := cMid_snoc_self_nonroot secs (cAfter secs (e + 1))
                done r q.rid hpq (fun he => hrq he.symm) htdone hkdt
              rw [hc2, hc1]
            · have hrnet : r ≠ t := fun he => hrt (by rw [he])
              rw [cMid_snoc_untouched secs _ done t r
                (by rw [hpq]; intro hcon; injection hcon with hc2; exact hrq hc2.symm)
                hrnet]
        have hchar' : ∀ k, k ∈ ids ↔ idsMidChar secs e (done ++ [t]) k := by
          intro k
          rw [hchar k]
          unfold idsMidChar
          constructor
          · rintro (h | h | h)
            · exact Or.inl h
            · refine Or.inr (Or.inl ?_)
              rw [kidsOf_append]
              intro hc
              exact h (List.append_eq_nil.mp hc).1
            · rcases h with ⟨d, hd, hrest⟩
              exact Or.inr (Or.inr ⟨d, by simp [hd], hrest⟩)
          · rintro (h | h | h)
            · exact Or.inl h
            · rw [kidsOf_append] at h
              by_cases hdp : kidsOf done k = []
              · rw [hdp, List.nil_append] at h
                have hk : k = q.rid := by
                  by_contra hne
                  rw [kidsOf_single_other t k
                    (by rw [hpq]; intro hcon; injection hcon with hc2; exact hne hc2.symm)] at h
                  exact h rfl
                rw [hk]
                exact (hchar q.rid).mp hpin
              · refine Or.inr (Or.inl hdp)
            · rcases h with ⟨d, hd, hdr, hdp⟩
              rcases List.mem_append.mp hd with hd2 | hd2
              · exact Or.inr (Or.inr ⟨d, hd2, hdr, hdp⟩)
              · have hdt : d = t := by simpa using hd2
                subst hdt
                rw [hpq] at hdp
                cases hdp
        obtain ⟨ids', hfold, hnd', hchar''⟩ := restructure_pass secs e hN h0 hPar
          rest (done ++ [t]) ids hsplit' hnd hchar'
        rw [hassoc] at hfold hchar''
        refine ⟨ids', ?_, hnd', hchar''⟩
        simp only [List.map_cons, List.foldlM_cons]
        rw [hstep2]
        simpa using hfold
      · -- parent inserted now, child attached under it
        have hkdq : kidsOf done q.rid = [] := by
          by_contra hne
          exact hpin ((hchar q.rid).mpr (Or.inr (Or.inl hne)))
        have hcmid_q : cMid secs (cAfter secs (e + 1)) done q = none := by
          unfold cMid
          rw [if_neg (by simp [hkdq]), if_neg (fun hc => hqdone hc.1), hcprev_q]
        have hstep2 : restructStep
            ⟨mapHeap secs (cMid secs (cAfter secs (e + 1)) done), diagMap ids⟩ t.rid
            = some ⟨mapHeap secs (cMid secs (cAfter secs (e + 1)) (done ++ [t])),
                diagMap (ids ++ [q.rid])⟩ := by
          rw [restructStep_parent_new secs (cMid secs (cAfter secs (e + 1)) done) ids hN
            t ht q hq hpq hq0 hpin]
          refine congrArg (fun h => some (RState.mk h (diagMap (ids ++ [q.rid]))))
            (mapHeap_congr secs _ _ ?_)
          intro r hr
          by_cases hrq : r.rid = q.rid
          · have heq : r = q := rid_inj secs hN r q hr hq hrq
            subst heq
            rw [if_pos rfl, hcmid_q, cMid_snoc_parent_eq secs _ done t r hpq, hkdq]
            simp [childInsert]
          · rw [if_neg hrq]
            by_cases hrt : r.rid = t.rid
            · have heq : r = t := rid_inj secs hN r t hr ht hrt
              subst heq
              obtain ⟨hc1, hc2⟩ := cMid_snoc_self_nonroot secs (cAfter secs (e + 1))
                done r q.rid hpq (fun he => hrq he.symm) htdone hkdt
              rw [hc2, hc1]
            · have hrnet : r ≠ t := fun he => hrt (by rw [he])
              rw [cMid_snoc_untouched secs _ done t r
                (by rw [hpq]; intro hcon; injection hcon with hc2; exact hrq hc2.symm)
                hrnet]
        have hnd1 : (ids ++ [q.rid]).Nodup := nodup_snoc ids q.rid hnd hpin
        have hchar' : ∀ k, k ∈ ids ++ [q.rid] ↔ idsMidChar secs e (done ++ [t]) k := by
          intro k
          rw [List.mem_append]
          unfold idsMidChar
          constructor
          · rintro (h | h)
            · rcases (hchar k).mp h with hA | hK | hR
              · exact Or.inl hA
              · refine Or.inr (Or.inl ?_)
                rw [kidsOf_append]
                intro hc
                exact hK (List.append_eq_nil.mp hc).1
              · rcases hR with ⟨d, hd, hrest⟩
                exact Or.inr (Or.inr ⟨d, by simp [hd], hrest⟩)
            · have hk : k = q.rid := by simpa using h
              subst hk
              refine Or.inr (Or.inl ?_)
              rw [kidsOf_append, hkdq, List.nil_append,
                kidsOf_single_parent t q.rid hpq]
              simp
          · rintro (h | h | h)
            · exact Or.inl ((hchar k).mpr (Or.inl h))
            · rw [kidsOf_append] at h
              by_cases hdp : kidsOf done k = []
              · rw [hdp, List.nil_append] at h
                have hk : k = q.rid := by
                  by_contra hne
                  rw [kidsOf_single_other t k
                    (by rw [hpq]; intro hcon; injection hcon with hc2; exact hne hc2.symm)] at h
                  exact h rfl
                rw [hk]
                simp
              · exact Or.inl ((hchar k).mpr (Or.inr (Or.inl hdp)))
            · rcases h with ⟨d, hd, hdr, hdp⟩
              rcases List.mem_append.mp hd with hd2 | hd2
              · exact Or.inl ((hchar k).mpr (Or.inr (Or.inr ⟨d, hd2, hdr, hdp⟩)))
              · have hdt : d = t := by simpa using hd2
                subst hdt
                rw [hpq] at hdp
                cases hdp
        obtain ⟨ids', hfold, hnd', hchar''⟩ := restructure_pass secs e hN h0 hPar
          rest (done ++ [t]) (ids ++ [q.rid]) hsplit' hnd1 hchar'
        rw [hassoc] at hfold hchar''
        refine ⟨ids', ?_, hnd', hchar''⟩
        simp only [List.map_cons, List.foldlM_cons]
        rw [hstep2]
        simpa using hfold

theorem kidsOf_cons_keep (a : PyRec) (l : List PyRec) (k : Nat)
    (h : a.parent_id = some k) : kidsOf (a :: l) k = a.rid :: kidsOf l k := by
  simp only [kidsOf, List.filter_cons]
  rw [if_pos (by simpa using h)]
  rfl

theorem kidsOf_cons_skip (a : PyRec) (l : List PyRec) (k : Nat)
    (h : a.parent_id ≠ some k) : kidsOf (a :: l) k = kidsOf l k := by
  simp only [kidsOf, List.filter_cons]
  rw [if_neg (by simpa using h)]

theorem kidsOf_filter_depth (secs : List PyRec) (hN : (secs.map PyRec.rid).Nodup)
    (hPar : ∀ r ∈ secs, r.parent_id = none ∨
      ∃ q ∈ secs, r.parent_id = some q.rid ∧ r.depth = q.depth + 1)
    (r : PyRec) (hr : r ∈ secs) (e : Nat) :
    kidsOf (secs.filter (fun x => x.depth == e)) r.rid
      = if r.depth + 1 = e then kidsOf secs r.rid else [] := by
  have key : ∀ (l : List PyRec), (∀ c ∈ l, c ∈ secs) →
      kidsOf (l.filter (fun x => x.depth == e)) r.rid
        = if r.depth + 1 = e then kidsOf l r.rid else [] := by
    intro l hl
    induction l with
    | nil => simp [kidsOf]
    | cons a rest ih =>
      have ha := hl a (by simp)
      have hrest : ∀ c ∈ rest, c ∈ secs := fun c hc => hl c (by simp [hc])
      simp only [List.filter_cons]
      by_cases hap : a.parent_id = some r.rid
      · have had : a.depth = r.depth + 1 := kids_depth secs hN hPar r hr a ha hap
        by_cases he : r.depth + 1 = e
        · rw [if_pos (by simpa using (by omega : a.depth = e))]
          rw [kidsOf_cons_keep a _ r.rid hap, kidsOf_cons_keep a rest r.rid hap]
          rw [if_pos he]
          have := ih hrest
          rw [if_pos he] at this
          rw [this]
        · rw [if_neg (by simpa using (by omega : ¬ a.depth = e))]
          rw [if_neg he]
          have := ih hrest
          rw [if_neg he] at this
          exact this
      · rw [kidsOf_cons_skip a rest r.rid hap]
        by_cases hde : a.depth = e
        · rw [if_pos (by simpa using hde)]
          rw [kidsOf_cons_skip a _ r.rid hap]
          exact ih hrest
        · rw [if_neg (by simpa using hde)]
          exact ih hrest
  exact key secs (fun c hc => hc)

theorem cAfter_shift (secs : List PyRec) (e : Nat) (r : PyRec)
    (h1 : r.depth ≠ e) (h2 : r.depth + 1 ≠ e) :
    cAfter secs e r = cAfter secs (e + 1) r := by
  unfold cAfter
  have ha : (kidsOf secs r.rid ≠ [] ∧ e ≤ r.depth + 1)
      ↔ (kidsOf secs r.rid ≠ [] ∧ e + 1 ≤ r.depth + 1) := by
    constructor <;> rintro ⟨hx, hy⟩ <;> exact ⟨hx, by omega⟩
  have hb : (r.parent_id = none ∧ e ≤ r.depth)
      ↔ (r.parent_id = none ∧ e + 1 ≤ r.depth) := by
    constructor <;> rintro ⟨hx, hy⟩ <;> exact ⟨hx, by omega⟩
  simp only [ha, hb]

theorem cMid_end (secs : List PyRec) (hN : (secs.map PyRec.rid).Nodup)
    (hPar : ∀ r ∈ secs, r.parent_id = none ∨
      ∃ q ∈ secs, r.parent_id = some q.rid ∧ r.depth = q.depth + 1)
    (e : Nat) (r : PyRec) (hr : r ∈ secs) :
    cMid secs (cAfter secs (e + 1)) (secs.filter (fun x => x.depth == e)) r
      = cAfter secs e r := by
  have hkf := kidsOf_filter_depth secs hN hPar r hr e
  by_cases hke : r.depth + 1 = e
  · rw [if_pos hke] at hkf
    have hde : r.depth ≠ e := by omega
    have hnm : r ∉ secs.filter (fun x => x.depth == e) := by
      intro hmem
      exact hde (by simpa using (List.mem_filter.mp hmem).2)
    by_cases hknil : kidsOf secs r.rid = []
    · have hA : cAfter secs (e + 1) r = none := by
        unfold cAfter
        rw [if_neg (by rintro ⟨hx, _⟩; exact hx hknil),
          if_neg (by rintro ⟨_, hy⟩; omega)]
      have hB : cAfter secs e r = none := by
        unfold cAfter
        rw [if_neg (by rintro ⟨hx, _⟩; exact hx hknil),
          if_neg (by rintro ⟨_, hy⟩; omega)]
      unfold cMid
      rw [hkf, hknil]
      rw [if_neg (by simp), if_neg (fun hc => hnm hc.1), hA, hB]
    · unfold cMid cAfter
      rw [hkf]
      rw [if_pos hknil, if_pos ⟨hknil, by omega⟩]
  · rw [if_neg hke] at hkf
    by_cases hde : r.depth = e
    · have hmem : r ∈ secs.filter (fun x => x.depth == e) :=
        List.mem_filter.mpr ⟨hr, by simpa using hde⟩
      by_cases hroot : r.parent_id = none
      · by_cases hknil : kidsOf secs r.rid = []
        · unfold cMid cAfter
          rw [hkf]
          rw [if_neg (by simp), if_pos ⟨hmem, hroot, hknil⟩]
          rw [if_neg (by rintro ⟨hx, _⟩; exact hx hknil), if_pos ⟨hroot, by omega⟩]
        · unfold cMid cAfter
          rw [hkf]
          rw [if_neg (by simp), if_neg (by rintro ⟨_, _, hx⟩; exact hknil hx)]
          rw [if_pos ⟨hknil, by omega⟩, if_pos ⟨hknil, by omega⟩]
      · by_cases hknil : kidsOf secs r.rid = []
        · unfold cMid cAfter
          rw [hkf]
          rw [if_neg (by simp), if_neg (by rintro ⟨_, hx, _⟩; exact hroot hx)]
          rw [if_neg (by rintro ⟨hx, _⟩; exact hx hknil),
            if_neg (by rintro ⟨hx, _⟩; exact hroot hx),
            if_neg (by rintro ⟨hx, _⟩; exact hx hknil),
            if_neg (by rintro ⟨hx, _⟩; exact hroot hx)]
        · unfold cMid cAfter
          rw [hkf]
          rw [if_neg (by simp), if_neg (by rintro ⟨_, hx, _⟩; exact hroot hx)]
          rw [if_pos ⟨hknil, by omega⟩, if_pos ⟨hknil, by omega⟩]
    · have hnm : r ∉ secs.filter (fun x => x.depth == e) := by
        intro hmem
        exact hde (by simpa using (List.mem_filter.mp hmem).2)
      unfold cMid
      rw [hkf]
      rw [if_neg (by simp), if_neg (fun hc => hnm hc.1)]
      exact (cAfter_shift secs e r hde hke).symm

theorem idsMidChar_end (secs : List PyRec) (hN : (secs.map PyRec.rid).Nodup)
    (hPar : ∀ r ∈ secs, r.parent_id = none ∨
      ∃ q ∈ secs, r.parent_id = some q.rid ∧ r.depth = q.depth + 1)
    (e : Nat) (k : Nat) :
    idsMidChar secs e (secs.filter (fun r => r.depth == e)) k
      ↔ idsAfterChar secs e k := by
  constructor
  · rintro (hA | hK | hR)
    · rcases hA with ⟨r, hr, hrid, hc⟩
      refine ⟨r, hr, hrid, ?_⟩
      rcases hc with ⟨h1, h2⟩ | ⟨h1, h2⟩
      · exact Or.inl ⟨h1, by omega⟩
      · exact Or.inr ⟨h1, by omega⟩
    · obtain ⟨y, hy⟩ := List.exists_mem_of_ne_nil _ hK
      rcases (kidsOf_mem_iff _ k y).mp hy with ⟨cc, hcc, hpp, _⟩
      have hccs := List.mem_filter.mp hcc
      have hcce : cc.depth = e := by simpa using hccs.2
      rcases hPar cc hccs.1 with hno | ⟨q, hq2, hpq2, hdq2⟩
      · rw [hno] at hpp
        cases hpp
      · rw [hpp] at hpq2
        injection hpq2 with he
        refine ⟨q, hq2, he.symm, Or.inr ⟨?_, by omega⟩⟩
        exact List.ne_nil_of_mem (kidsOf_mem secs k cc hccs.1 hpp)
    · rcases hR with ⟨d, hd, hdr, hdp⟩
      have hds := List.mem_filter.mp hd
      have hde : d.depth = e := by simpa using hds.2
      exact ⟨d, hds.1, hdr, Or.inl ⟨hdp, by omega⟩⟩
  · rintro ⟨r, hr, hrid, hc⟩
    rcases hc with ⟨h1, h2⟩ | ⟨h1, h2⟩
    · by_cases he : r.depth = e
      · exact Or.inr (Or.inr ⟨r, List.mem_filter.mpr ⟨hr, by simpa using he⟩, hrid, h1⟩)
      · exact Or.inl ⟨r, hr, hrid, Or.inl ⟨h1, by omega⟩⟩
    · by_cases he : r.depth + 1 = e
      · refine Or.inr (Or.inl ?_)
        rw [← hrid] at h1 ⊢
        rw [kidsOf_filter_depth secs hN hPar r hr e, if_pos he]
        exact h1
      · exact Or.inl ⟨r, hr, hrid, Or.inr ⟨h1, by omega⟩⟩

theorem mapHeap_atDepth (secs : List PyRec) (c : PyRec → Option (List Nat)) (e : Nat) :
    ((mapHeap secs c).filter (fun q => q.2.depth == e)).map (fun q => q.1)
      = (secs.filter (fun r => r.depth == e)).map PyRec.rid := by
  unfold mapHeap
  rw [List.filter_map, List.map_map]
  have h1 : ((fun q : Nat × PyRec => q.2.depth == e) ∘
      (fun r : PyRec => (r.rid, { r with children := c r }))) = fun r => r.depth == e := by
    funext r
    rfl
  rw [h1]
  apply List.map_congr_left
  intro r _
  rfl

theorem restructure_level (secs : List PyRec) (hN : (secs.map PyRec.rid).Nodup)
    (h0 : ∀ r ∈ secs, r.rid ≠ 0)
    (hPar : ∀ r ∈ secs, r.parent_id = none ∨
      ∃ q ∈ secs, r.parent_id = some q.rid ∧ r.depth = q.depth + 1)
    (e : Nat) (ids : List Nat) (hnd : ids.Nodup)
    (hchar : ∀ k, k ∈ ids ↔ idsAfterChar secs (e + 1) k) :
    ∃ ids', restructure (mapHeap secs (cAfter secs (e + 1))) e (diagMap ids)
        = some ⟨mapHeap secs (cAfter secs e), diagMap ids'⟩
      ∧ ids'.Nodup ∧ (∀ k, k ∈ ids' ↔ idsAfterChar secs e k) := by
  have hchar0 : ∀ k, k ∈ ids ↔ idsMidChar secs e [] k := by
    intro k
    rw [hchar k]
    unfold idsMidChar
    constructor
    · exact fun h => Or.inl h
    · rintro (h | h | h)
      · exact h
      · simp [kidsOf] at h
      · simp at h
  have hswap : mapHeap secs (cAfter secs (e + 1))
      = mapHeap secs (cMid secs (cAfter secs (e + 1)) []) := by
    apply mapHeap_congr
    intro r _
    unfold cMid
    rw [if_neg (by simp [kidsOf]), if_neg (by simp)]
  obtain ⟨ids', hfold, hnd', hchar'⟩ := restructure_pass secs e hN h0 hPar
    (secs.filter (fun r => r.depth == e)) [] ids (by simp) hnd hchar0
  simp only [List.nil_append] at hfold hchar'
  refine ⟨ids', ?_, hnd', ?_⟩
  · unfold restructure
    rw [hswap]
    rw [mapHeap_atDepth secs (cMid secs (cAfter secs (e + 1)) []) e]
    rw [hfold]
    refine congrArg (fun h => some (RState.mk h (diagMap ids'))) ?_
    apply mapHeap_congr
    intro r hr
    exact cMid_end secs hN hPar e r hr
  · intro k
    rw [hchar' k]
    exact idsMidChar_end secs hN hPar e k

theorem restructure_levels (secs : List PyRec) (hN : (secs.map PyRec.rid).Nodup)
    (h0 : ∀ r ∈ secs, r.rid ≠ 0)
    (hPar : ∀ r ∈ secs, r.parent_id = none ∨
      ∃ q ∈ secs, r.parent_id = some q.rid ∧ r.depth = q.depth + 1) :
    ∀ (e : Nat) (ids : List Nat), ids.Nodup →
      (∀ k, k ∈ ids ↔ idsAfterChar secs (e + 1) k) →
      ∃ ids',
        ((List.range (e + 1)).reverse).foldlM
            (fun st i => restructure st.heap i st.structured)
            ⟨mapHeap secs (cAfter secs (e + 1)), diagMap ids⟩
          = some ⟨mapHeap secs (cAfter secs 0), diagMap ids'⟩
        ∧ ids'.Nodup ∧ (∀ k, k ∈ ids' ↔ idsAfterChar secs 0 k)
  | 0, ids, hnd, hchar => by
    obtain ⟨ids', hres, hnd', hchar'⟩ := restructure_level secs hN h0 hPar 0 ids hnd hchar
    refine ⟨ids', ?_, hnd', hchar'⟩
    rw [show (List.range 1).reverse = [0] from rfl]
    simp only [List.foldlM_cons, List.foldlM_nil]
    rw [hres]
    rfl
  | e + 1, ids, hnd, hchar => by
    obtain ⟨ids1, hres, hnd1, hchar1⟩ :=
      restructure_level secs hN h0 hPar (e + 1) ids hnd hchar
    obtain ⟨ids', hfold, hnd', hchar'⟩ :=
      restructure_levels secs hN h0 hPar e ids1 hnd1 hchar1
    refine ⟨ids', ?_, hnd', hchar'⟩
    have hrange : (List.range (e + 1 + 1)).reverse
        = (e + 1) :: (List.range (e + 1)).reverse := by
      rw [List.range_succ, List.reverse_append]
      rfl
    rw [hrange]
    simp only [List.foldlM_cons]
    rw [hres]
    simpa using hfold

theorem le_foldl_max (l : List Nat) :
    ∀ a : Nat, a ≤ l.foldl max a ∧ ∀ x ∈ l, x ≤ l.foldl max a := by
  induction l with
  | nil =>
    intro a
    exact ⟨le_refl a, by simp⟩
  | cons b rest ih =>
    intro a
    obtain ⟨h1, h2⟩ := ih (max a b)
    refine ⟨le_trans (le_max_left a b) h1, ?_⟩
    intro x hx
    rcases List.mem_cons.mp hx with hx | hx
    · exact le_trans (hx ▸ le_max_right a b) h1
    · exact h2 x hx

theorem flatten_eq (secs : List PyRec) (hN : (secs.map PyRec.rid).Nodup)
    (hC : ∀ r ∈ secs, r.children = none) :
    flatten_testrail_dict secs = mapHeap secs (fun _ => none) := by
  have key : ∀ (l : List PyRec) (acc : List (Nat × PyRec)),
      (∀ r ∈ l, r.rid ∉ acc.map Prod.fst) → (l.map PyRec.rid).Nodup →
      l.foldl (fun h r => dictInsert h r.rid r) acc
        = acc ++ l.map (fun r => (r.rid, r)) := by
    intro l
    induction l with
    | nil =>
      intro acc _ _
      simp
    | cons a rest ih =>
      intro acc hacc hnd2
      have hnd3 : a.rid ∉ rest.map PyRec.rid ∧ (rest.map PyRec.rid).Nodup := by
        simpa using hnd2
      simp only [List.foldl_cons]
      have hins : dictInsert acc a.rid a = acc ++ [(a.rid, a)] := by
        unfold dictInsert
        have hhk : dictHasKey acc a.rid = false := by
          cases hx : dictHasKey acc a.rid
          · rfl
          · exfalso
            rcases List.any_eq_true.mp hx with ⟨p, hp, hpk⟩
            exact hacc a (by simp)
              (List.mem_map.mpr ⟨p, hp, by simpa using hpk⟩)
        rw [hhk]
        simp
      rw [hins]
      have hrest := ih (acc ++ [(a.rid, a)]) ?_ hnd3.2
      · rw [hrest]
        simp
      · intro r hr
        simp only [List.map_append]
        intro hmem
        rcases List.mem_append.mp hmem with hm | hm
        · exact hacc r (by simp [hr]) hm
        · have hra : r.rid = a.rid := by simpa using hm
          exact hnd3.1 (hra ▸ List.mem_map.mpr ⟨r, hr, rfl⟩)
  have hkey := key secs [] (by simp) hN
  unfold flatten_testrail_dict
  rw [hkey]
  simp only [List.nil_append]
  unfold mapHeap
  apply List.map_congr_left
  intro r hr
  have hc := hC r hr
  cases r with
  | mk rid pid d ch =>
    simp only at hc
    rw [hc]

theorem structure_testrail_spec (secs : List PyRec)
    (hN : (secs.map PyRec.rid).Nodup)
    (h0 : ∀ r ∈ secs, r.rid ≠ 0)
    (hC : ∀ r ∈ secs, r.children = none)
    (hPar : ∀ r ∈ secs, r.parent_id = none ∨
      ∃ q ∈ secs, r.parent_id = some q.rid ∧ r.depth = q.depth + 1) :
    ∃ ids, structure_testrail_dict secs
        = some ⟨mapHeap secs (cAfter secs 0), diagMap ids⟩
      ∧ ids.Nodup ∧ (∀ k, k ∈ ids ↔ idsAfterChar secs 0 k) := by
  by_cases hemp : secs = []
  · subst hemp
    refine ⟨[], rfl, by simp, ?_⟩
    intro k
    simp only [List.not_mem_nil, false_iff]
    rintro ⟨r, hr, -⟩
    simp at hr
  · unfold structure_testrail_dict
    rw [flatten_eq secs hN hC]
    dsimp only
    have hdl : (mapHeap secs (fun _ => none)).map (fun q => q.2.depth)
        = secs.map PyRec.depth := by
      unfold mapHeap
      rw [List.map_map]
      apply List.map_congr_left
      intro r _
      rfl
    rw [hdl]
    have hlen : (secs.map PyRec.depth).length > 0 := by
      cases secs with
      | nil => exact absurd rfl hemp
      | cons a l => simp
    rw [if_pos hlen]
    have hdepthle : ∀ r ∈ secs,
        r.depth ≤ (secs.map PyRec.depth).foldl max 0 := by
      intro r hr
      exact (le_foldl_max (secs.map PyRec.depth) 0).2 r.depth
        (List.mem_map.mpr ⟨r, hr, rfl⟩)
    have hinit : mapHeap secs (fun _ => none)
        = mapHeap secs (cAfter secs ((secs.map PyRec.depth).foldl max 0 + 1)) := by
      apply mapHeap_congr
      intro r hr
      have hc1 : ¬ (kidsOf secs r.rid ≠ [] ∧
          (secs.map PyRec.depth).foldl max 0 + 1 ≤ r.depth + 1) := by
        rintro ⟨hx, hy⟩
        obtain ⟨y, hyy⟩ := List.exists_mem_of_ne_nil _ hx
        rcases (kidsOf_mem_iff secs r.rid y).mp hyy with ⟨cc, hcc, hpp, -⟩
        have hcd := kids_depth secs hN hPar r hr cc hcc hpp
        have h1 := hdepthle cc hcc
        omega
      have hc2 : ¬ (r.parent_id = none ∧
          (secs.map PyRec.depth).foldl max 0 + 1 ≤ r.depth) := by
        rintro ⟨-, hy⟩
        have := hdepthle r hr
        omega
      unfold cAfter
      rw [if_neg hc1, if_neg hc2]
    have hchar0 : ∀ k, k ∈ ([] : List Nat)
        ↔ idsAfterChar secs ((secs.map PyRec.depth).foldl max 0 + 1) k := by
      intro k
      simp only [List.not_mem_nil, false_iff]
      rintro ⟨r, hr, hrid, hc⟩
      rcases hc with ⟨-, hy⟩ | ⟨hx, hy⟩
      · have := hdepthle r hr
        omega
      · obtain ⟨y, hyy⟩ := List.exists_mem_of_ne_nil _ hx
        rcases (kidsOf_mem_iff secs k y).mp hyy with ⟨cc, hcc, hpp, -⟩
        rw [← hrid] at hpp
        have hcd := kids_depth secs hN hPar r hr cc hcc hpp
        have h1 := hdepthle cc hcc
        omega
    obtain ⟨ids, hfold, hnd, hchar⟩ := restructure_levels secs hN h0 hPar
      ((secs.map PyRec.depth).foldl max 0) [] (by simp) hchar0
    refine ⟨ids, ?_, hnd, hchar⟩
    rw [hinit]
    simpa using hfold

/-- A three-record chain satisfying the claim's hypotheses: a root (id 1,
depth 0), its child (id 2, depth 1) and a grandchild (id 3, depth 2). -/
def exChain : List PyRec :=
  [⟨1, none, 0, none⟩, ⟨2, some 1, 1, none⟩, ⟨3, some 2, 2, none⟩]

/-- C1: counterexample.  On the three-record chain `exChain` — a valid
input in which every non-root `parent_id` refers to a record of
depth − 1 — the top-level keys of the structure returned by
`structure_testrail_dict` are `[2, 1]`, although the only root record
(with `parent_id` null) is id 1: the non-root record 2 also appears as a
top-level key (besides appearing under its parent's children container),
so top-level keys are not exactly the root ids and record 2 does not
appear exactly once in the tree. -/
theorem C1_counterexample :
    (structure_testrail_dict exChain).map (fun st => st.structured.map Prod.fst)
        = some [2, 1]
      ∧ (exChain.filter (fun r => r.parent_id == none)).map PyRec.rid = [1]
      ∧ (∃ r ∈ exChain, r.rid = 2 ∧ r.parent_id = some 1) := by
  decide

/-- C1 (amended): for every flat input whose records have distinct nonzero
ids, no pre-existing `children` key, and every non-root parent referring
to a record of depth − 1, `structure_testrail_dict` succeeds and its
top-level keys are exactly the ids of root records TOGETHER WITH the ids
of all records that have children (each appearing once); every record of
the input appears in the underlying mapping with its children container
holding exactly the ids of the records naming it as parent (an empty
container for childless roots, no container otherwise). -/
theorem C1_amended_top_level_keys (secs : List PyRec)
    (hN : (secs.map PyRec.rid).Nodup)
    (h0 : ∀ r ∈ secs, r.rid ≠ 0)
    (hC : ∀ r ∈ secs, r.children = none)
    (hPar : ∀ r ∈ secs, r.parent_id = none ∨
      ∃ q ∈ secs, r.parent_id = some q.rid ∧ r.depth = q.depth + 1) :
    ∃ st, structure_testrail_dict secs = some st
      ∧ (st.structured.map Prod.fst).Nodup
      ∧ (∀ k, k ∈ st.structured.map Prod.fst ↔
          ∃ r ∈ secs, r.rid = k ∧ (r.parent_id = none ∨ kidsOf secs k ≠ []))
      ∧ (∀ r ∈ secs, dictLookup st.heap r.rid
          = some { r with children := cAfter secs 0 r }) := by
  obtain ⟨ids, hres, hnd, hchar⟩ := structure_testrail_spec secs hN h0 hC hPar
  have hdm : (diagMap ids).map Prod.fst = ids := by
    unfold diagMap
    rw [List.map_map]
    exact List.map_id ids
  refine ⟨⟨mapHeap secs (cAfter secs 0), diagMap ids⟩, hres, ?_, ?_, ?_⟩
  · show ((diagMap ids).map Prod.fst).Nodup
    rw [hdm]
    exact hnd
  · intro k
    show k ∈ (diagMap ids).map Prod.fst ↔ _
    rw [hdm, hchar k]
    unfold idsAfterChar
    constructor
    · rintro ⟨r, hr, hrid, hcc⟩
      rcases hcc with ⟨h1, -⟩ | ⟨h1, -⟩
      · exact ⟨r, hr, hrid, Or.inl h1⟩
      · exact ⟨r, hr, hrid, Or.inr h1⟩
    · rintro ⟨r, hr, hrid, hcc⟩
      rcases hcc with h1 | h1
      · exact ⟨r, hr, hrid, Or.inl ⟨h1, Nat.zero_le _⟩⟩
      · exact ⟨r, hr, hrid, Or.inr ⟨h1, Nat.zero_le _⟩⟩
  · intro r hr
    show dictLookup (mapHeap secs (cAfter secs 0)) r.rid = _
    exact mapHeap_lookup secs (cAfter secs 0) r hN hr

/-- The amended C1 theorem applied to the concrete chain `exChain`, with
every hypothesis discharged there. -/
theorem C1_amended_witness :
    ((exChain.map PyRec.rid).Nodup
      ∧ (∀ r ∈ exChain, r.rid ≠ 0)
      ∧ (∀ r ∈ exChain, r.children = none)
      ∧ (∀ r ∈ exChain, r.parent_id = none ∨
          ∃ q ∈ exChain, r.parent_id = some q.rid ∧ r.depth = q.depth + 1))
    ∧ (∃ st, structure_testrail_dict exChain = some st
      ∧ (st.structured.map Prod.fst).Nodup
      ∧ (∀ k, k ∈ st.structured.map Prod.fst ↔
          ∃ r ∈ exChain, r.rid = k ∧ (r.parent_id = none ∨ kidsOf exChain k ≠ []))
      ∧ (∀ r ∈ exChain, dictLookup st.heap r.rid
          = some { r with children := cAfter exChain 0 r })) :=
  ⟨⟨by decide, by decide, by decide, by decide⟩,
    C1_amended_top_level_keys exChain (by decide) (by decide) (by decide) (by decide)⟩

/-- C10: `restructure` mutates the flat mapping's records in place and the
returned structure shares them.  Under the input hypotheses, the state
returned by `structure_testrail_dict` has as its flat mapping (`heap`)
exactly the input records with only a `children` key assigned
(`mapHeap secs (cAfter secs 0)`); every record that is attached as a
parent (it has kids) or inserted as a root gains a `children` key
(`isSome`); and every entry of the returned `structured` dict is the
ADDRESS of the record at the same key of the flat mapping (`p.2 = p.1`),
so the tree aliases the mutated input records rather than copying them. -/
theorem C10_structuring_mutates_shared_records (secs : List PyRec)
    (hN : (secs.map PyRec.rid).Nodup)
    (h0 : ∀ r ∈ secs, r.rid ≠ 0)
    (hC : ∀ r ∈ secs, r.children = none)
    (hPar : ∀ r ∈ secs, r.parent_id = none ∨
      ∃ q ∈ secs, r.parent_id = some q.rid ∧ r.depth = q.depth + 1) :
    ∃ st, structure_testrail_dict secs = some st
      ∧ st.heap = mapHeap secs (cAfter secs 0)
      ∧ (∀ p ∈ st.structured, p.2 = p.1)
      ∧ (∀ r ∈ secs, (r.parent_id = none ∨ kidsOf secs r.rid ≠ []) →
          dictLookup st.heap r.rid = some { r with children := cAfter secs 0 r }
          ∧ (cAfter secs 0 r).isSome = true) := by
  obtain ⟨ids, hres, hnd, hchar⟩ := structure_testrail_spec secs hN h0 hC hPar
  refine ⟨⟨mapHeap secs (cAfter secs 0), diagMap ids⟩, hres, rfl, ?_, ?_⟩
  · intro p hp
    rcases List.mem_map.mp (show p ∈ ids.map (fun k => (k, k)) from hp)
      with ⟨k, hk, hpk⟩
    rw [← hpk]
  · intro r hr hcond
    refine ⟨mapHeap_lookup secs (cAfter secs 0) r hN hr, ?_⟩
    unfold cAfter
    by_cases hknil : kidsOf secs r.rid = []
    · rcases hcond with hroot | hk
      · rw [if_neg (by rintro ⟨hx, -⟩; exact hx hknil),
          if_pos ⟨hroot, Nat.zero_le _⟩]
        rfl
      · exact absurd hknil hk
    · rw [if_pos ⟨hknil, Nat.zero_le _⟩]
      rfl

/-- The C10 theorem applied to the concrete chain `exChain`, with every
hypothesis discharged there. -/
theorem C10_witness :
    ((exChain.map PyRec.rid).Nodup
      ∧ (∀ r ∈ exChain, r.rid ≠ 0)
      ∧ (∀ r ∈ exChain, r.children = none)
      ∧ (∀ r ∈ exChain, r.parent_id = none ∨
          ∃ q ∈ exChain, r.parent_id = some q.rid ∧ r.depth = q.depth + 1))
    ∧ (∃ st, structure_testrail_dict exChain = some st
      ∧ st.heap = mapHeap exChain (cAfter exChain 0)
      ∧ (∀ p ∈ st.structured, p.2 = p.1)
      ∧ (∀ r ∈ exChain, (r.parent_id = none ∨ kidsOf exChain r.rid ≠ []) →
          dictLookup st.heap r.rid
              = some { r with children := cAfter exChain 0 r }
          ∧ (cAfter exChain 0 r).isSome = true)) :=
  ⟨⟨by decide, by decide, by decide, by decide⟩,
    C10_structuring_mutates_shared_records exChain
      (by decide) (by decide) (by decide) (by decide)⟩
